import Mathlib

/-!
Verification development for the text-adventure command parser
(`simple_parser.js`).  Strings are modelled as `List Char`; the mutable
`TokenList` cursor of the source is modelled by passing the integer index
explicitly.  Every definition mirrors a function of the source file; the
source line numbers are recorded in the doc comments.
-/

set_option maxHeartbeats 1000000

/-- The apostrophe character, built from its code point. -/
def apos : Char := Char.ofNat 39

/-- JavaScript `\s` (whitespace class used by `trim`, the article regex and
`\s+`), by code point: tab..carriage-return, space, NBSP, and the Unicode
space separators plus BOM. -/
def isWs (c : Char) : Bool :=
  (9 ≤ c.toNat && c.toNat ≤ 13) || c.toNat = 32 || c.toNat = 160 ||
  c.toNat = 5760 || (8192 ≤ c.toNat && c.toNat ≤ 8202) ||
  c.toNat = 8232 || c.toNat = 8233 || c.toNat = 8239 || c.toNat = 8287 ||
  c.toNat = 12288 || c.toNat = 65279

/-- JavaScript line terminators (which `.` in a regex does not match). -/
def isLineTerm (c : Char) : Bool :=
  c.toNat = 10 || c.toNat = 13 || c.toNat = 8232 || c.toNat = 8233

/-- `String.prototype.toLowerCase` restricted to the ASCII letters, the only
characters the grammar and the claims exercise. -/
def jsToLower (c : Char) : Char :=
  if 65 ≤ c.toNat ∧ c.toNat ≤ 90 then Char.ofNat (c.toNat + 32) else c

/-- Lowercase a string character by character (`str.toLowerCase()`). -/
def lowerStr (l : List Char) : List Char := l.map jsToLower

/-- `str.trim()`: remove leading and trailing whitespace. -/
def trim (l : List Char) : List Char :=
  ((l.dropWhile isWs).reverse.dropWhile isWs).reverse

/-- Whether a list's first character is whitespace (`false` on `[]`);
used to model the regex engine requiring `\s+` to match at a position. -/
def headIsWs (l : List Char) : Bool :=
  match l with
  | [] => false
  | c :: _ => isWs c

/-- Whether a list's last character is whitespace (`false` on `[]`). -/
def lastIsWs (l : List Char) : Bool := headIsWs l.reverse

/-- One attempt of the alternation `(a|an|the)` of the article regex at the
current position, including the backtracking constraint that the following
`\s+` must be able to start (the next character is whitespace).  Returns the
remainder (starting with that whitespace) on success.  Alternatives are
tried in the source order `a`, `an`, `the`. -/
def stripArticle (l : List Char) : Option (List Char) :=
  match l with
  | 'a' :: rest =>
    if headIsWs rest then some rest
    else
      match rest with
      | 'n' :: rest2 => if headIsWs rest2 then some rest2 else none
      | _ => none
  | 't' :: 'h' :: 'e' :: rest => if headIsWs rest then some rest else none
  | _ => none

/-- A single match attempt of `/\s+(a|an|the)\s+/` anchored at the head of
`l` (the engine retries at the next index when this returns `none`).  Both
`\s+` groups are maximal runs: a shorter leading run would leave a
whitespace character in front of the article alternation, and the trailing
run is at the end of the pattern, so greediness takes the whole run.
Returns the remainder after the full match. -/
def matchArticleAt (l : List Char) : Option (List Char) :=
  match l.takeWhile isWs with
  | [] => none
  | _ :: _ =>
    match stripArticle (l.dropWhile isWs) with
    | none => none
    | some r2 =>
      match r2.takeWhile isWs with
      | [] => none
      | _ :: _ => some (r2.dropWhile isWs)

/-- `str.replace(articlesRegEx, ' ')` with
`articlesRegEx = /\s+(a|an|the)\s+/g` — the global left-to-right scan of
line 209 of the source: at each index, either replace a match with a single
space and resume after it, or emit the character and move on.  Stated with
an explicit fuel so the kernel can evaluate it; `replaceArticles` supplies
enough fuel for the scan (each match consumes at least one character). -/
def replaceArticlesF (fuel : Nat) (l : List Char) : List Char :=
  match fuel, l with
  | _, [] => []
  | 0, l => l
  | fuel + 1, c :: cs =>
    match matchArticleAt (c :: cs) with
    | some rest => ' ' :: replaceArticlesF fuel rest
    | none => c :: replaceArticlesF fuel cs

/-- The article-deletion pass of `tokenizeInputString` (source line 209). -/
def replaceArticles (l : List Char) : List Char :=
  replaceArticlesF l.length l

/-- `str.replace(/\s+/g, ' ')`: collapse each maximal whitespace run to a
single space (the space is emitted at the last character of the run). -/
def collapseWs (l : List Char) : List Char :=
  match l with
  | [] => []
  | c :: cs =>
    if isWs c then
      if headIsWs cs then collapseWs cs else ' ' :: collapseWs cs
    else c :: collapseWs cs

/-- `str.split(' ')` (JavaScript semantics: the result always has at least
one element; an empty string yields `[""]`). -/
def splitSp (l : List Char) : List (List Char) :=
  match l with
  | [] => [[]]
  | c :: cs =>
    if c = ' ' then [] :: splitSp cs
    else
      match splitSp cs with
      | t :: ts => (c :: t) :: ts
      | [] => [[c]]

/-- `arr.join(' ')`. -/
def joinSp (ts : List (List Char)) : List Char :=
  match ts with
  | [] => []
  | [w] => w
  | w :: rest => w ++ ' ' :: joinSp rest

/-- `tokenizeInputString` (source lines 195–210): trim, lowercase, delete
articles via the single-pass global regex, collapse whitespace runs, and
split on spaces. -/
def tokenizeInputString (s : List Char) : List (List Char) :=
  splitSp (collapseWs (replaceArticles (lowerStr (trim s))))

/-- Whether a character is a lowercase ASCII letter (`[a-z]` in the word
regex of `tokenizeRule`). -/
def isLowerAZ (c : Char) : Bool := 97 ≤ c.toNat && c.toNat ≤ 122

/-- Whether a list's first character is a lowercase letter. -/
def headIsLower (l : List Char) : Bool :=
  match l with
  | [] => false
  | c :: _ => isLowerAZ c

/-- The maximal runs of `[a-z]` characters of a string
(`part.match(/[a-z]+/g)`, source line 177; an empty result models the
`null` that the source would crash on, which no grammar rule triggers). -/
def lowerRuns (l : List Char) : List (List Char) :=
  match l with
  | [] => []
  | c :: cs =>
    if isLowerAZ c then
      if headIsLower cs then
        match lowerRuns cs with
        | w :: ws => (c :: w) :: ws
        | [] => [[c]]
      else [c] :: lowerRuns cs
    else lowerRuns cs

/-- Scan for the closing quote of a lazily matched `".+?"`: the first `"`
in the list, provided no line terminator (which `.` cannot match) comes
before it.  Returns the characters before the quote and the remainder
after it. -/
def scanClose (l : List Char) : Option (List Char × List Char) :=
  match l with
  | [] => none
  | c :: cs =>
    if c = '"' then some ([], cs)
    else if isLineTerm c then none
    else
      match scanClose cs with
      | some (p, r) => some (c :: p, r)
      | none => none

/-- Attempt the `".+?"` alternative right after an opening quote: `.+?`
needs at least one character (which may itself be `"`), then the closing
quote; lazy matching takes the first closing quote thereafter. -/
def findClose (l : List Char) : Option (List Char × List Char) :=
  match l with
  | [] => none
  | c :: cs =>
    if isLineTerm c then none
    else
      match scanClose cs with
      | some (p, r) => some (c :: p, r)
      | none => none

/-- `rule.match(/".+?"|\S+/g)` (source line 156): the global scan producing
the quoted spans and maximal non-whitespace runs of the rule string, in
order.  A `null` result of the JavaScript call is the empty list here
(source lines 163–165 return `[]` for it).  Stated with explicit fuel so
the kernel can evaluate it; each emitted part consumes at least one
character, so the string's length is enough fuel. -/
def rulePartsF (fuel : Nat) (l : List Char) : List (List Char) :=
  match fuel, l with
  | _, [] => []
  | 0, _ => []
  | fuel + 1, c :: cs =>
    if c = '"' then
      match findClose cs with
      | some (inner, rest) => ('"' :: inner ++ ['"']) :: rulePartsF fuel rest
      | none =>
        ('"' :: cs.takeWhile (fun x => !isWs x)) ::
          rulePartsF fuel (cs.dropWhile (fun x => !isWs x))
    else if isWs c then rulePartsF fuel cs
    else
      (c :: cs.takeWhile (fun x => !isWs x)) ::
        rulePartsF fuel (cs.dropWhile (fun x => !isWs x))

/-- The part scan of `tokenizeRule` with sufficient fuel. -/
def ruleParts (l : List Char) : List (List Char) :=
  rulePartsF l.length l

/-- The `TT_WORD` type-tag constant (source line 4). -/
def TT_WORD : List Char := ":word:".data

/-- The `Token` class for rule tokens (source lines 107–112): literal words
get `type = TT_WORD` and the word as `value`; symbols get the segment as
`type` and a `null` (`none`) value. -/
structure Token where
  type : List Char
  value : Option (List Char)
deriving DecidableEq

/-- `tokenizeRule` (source lines 151–187): split the rule string into
quoted spans and bare segments; each `[a-z]+` word of a quoted span
becomes one `TT_WORD` token, each bare segment one symbol token. -/
def tokenizeRule (rule : List Char) : List Token :=
  (ruleParts rule).flatMap (fun part =>
    match part with
    | '"' :: _ => (lowerRuns part).map (fun w => Token.mk TT_WORD (some w))
    | _ => [Token.mk part none])

/-- The `GameObject` test class (source lines 8–12); none of the objects in
the program define the optional `parseName` hook of source line 261. -/
structure GameObject where
  name : List (List Char)
deriving DecidableEq

/-- `getGameObjectsFromCurrentRoom` (source lines 218–227). -/
def getGameObjectsFromCurrentRoom : List GameObject :=
  [⟨["old".data, "rusty".data, "key".data]⟩,
   ⟨["old".data, "man".data]⟩,
   ⟨["desk".data]⟩,
   ⟨["big".data, "crate".data]⟩,
   ⟨["small".data, "crate".data]⟩]

/-- The scoring loop of `parseSingle` (source lines 267–278) for one
object, walking the tokens from the cursor position onward: count how many
consecutive input tokens are members of the object's name list.
`while (inputTokens.currentToken())` uses JavaScript truthiness, so an
empty-string token also stops the run. -/
def scanScoreGo (name : List (List Char)) : List (List Char) → Nat
  | [] => 0
  | t :: rest =>
    if t = [] then 0
    else if name.contains t then 1 + scanScoreGo name rest
    else 0

/-- The score of one object from starting index `i` (the cursor's tokens
from `i` on are `toks.drop i`). -/
def scanScore (name : List (List Char)) (toks : List (List Char)) (i : Nat) :
    Nat :=
  scanScoreGo name (toks.drop i)

/-- The best-match accumulator of `parseSingle`: the list of
`[gameObject, endIndex]` pairs and the best score so far (source lines
251–252). -/
structure PSState where
  bestMatch : List (GameObject × Nat)
  bestMatchScore : Nat
deriving DecidableEq

/-- One iteration of the object loop of `parseSingle` (source lines
255–295): score the object from the starting index and push/replace the
best-match list accordingly.  The token index after the iteration is
`start + score`. -/
def psStep (toks : List (List Char)) (start : Nat) (st : PSState)
    (g : GameObject) : PSState :=
  let sc := scanScore g.name toks start
  if sc > 0 then
    if sc = st.bestMatchScore then
      ⟨st.bestMatch ++ [(g, start + sc)], st.bestMatchScore⟩
    else if sc > st.bestMatchScore then ⟨[(g, start + sc)], sc⟩
    else st
  else st

/-- The result of a resolver: the `{result, error}` object of the source
paired with the token index at which the resolver left the shared cursor. -/
structure ResolveResult (α : Type) where
  result : Except (List Char) α
  index : Nat

/-- `parseSingle` (source lines 238–310) generalized over the candidate
list (the source always passes `getGameObjectsFromCurrentRoom`).  Returns
the matched object or the error string, together with the final cursor
index: the recorded end index on a unique match, and otherwise the index
left by scoring the last candidate (`start + its score`), since the loop
resets the index to `start` for each candidate and failure paths do not
restore it. -/
def parseSingleCore (objs : List GameObject) (toks : List (List Char))
    (start : Nat) : ResolveResult GameObject :=
  let st := objs.foldl (psStep toks start) ⟨[], 0⟩
  let finalIdx :=
    match objs.getLast? with
    | some g => start + scanScore g.name toks start
    | none => start
  if st.bestMatchScore > 0 then
    match st.bestMatch with
    | [m] => ⟨Except.ok m.1, m.2⟩
    | _ => ⟨Except.error ("multiple objects found".data), finalIdx⟩
  else ⟨Except.error ("no objects found".data), finalIdx⟩

/-- `parseSingle` as the program calls it, on the current room's objects. -/
def parseSingle (toks : List (List Char)) (start : Nat) :
    ResolveResult GameObject :=
  parseSingleCore getGameObjectsFromCurrentRoom toks start

/-- Take up to `n` tokens starting at index `i`, stopping early at the end
of input or at a falsy (empty) token — the inner loop of `parseDanceStyle`
(source lines 325–331).  Returns the words taken and the final index. -/
def takeTokens (toks : List (List Char)) (i : Nat) (n : Nat) :
    List (List Char) × Nat :=
  match n with
  | 0 => ([], i)
  | m + 1 =>
    match toks.get? i with
    | none => ([], i)
    | some t =>
      if t = [] then ([], i)
      else
        let (ws, j) := takeTokens toks (i + 1) m
        (t :: ws, j)

/-- The dance list of `parseDanceStyle` (source line 317). -/
def dances : List (List Char) :=
  ["waltz".data, "tango".data, "funky chicken".data]

/-- The loop of `parseDanceStyle` over the dance list (source lines
319–336): for each dance, restart at `start`, take as many tokens as the
dance has words, and succeed if they re-join to the dance. -/
def parseDanceStyleGo (toks : List (List Char)) (start : Nat) :
    List (List Char) → Option (List Char × Nat)
  | [] => none
  | d :: ds =>
    let (ws, j) := takeTokens toks start (splitSp d).length
    if joinSp ws = d then some (d, j) else parseDanceStyleGo toks start ds

/-- `parseDanceStyle` (source lines 315–339): on failure the index is reset
to the starting index (source line 337). -/
def parseDanceStyle (toks : List (List Char)) (start : Nat) :
    ResolveResult (List Char) :=
  match parseDanceStyleGo toks start dances with
  | some (d, j) => ⟨Except.ok d, j⟩
  | none =>
    ⟨Except.error ("I don".data ++ apos :: "t know that dance".data), start⟩

/-- A JavaScript value that can appear as a resolved rule parameter: a
`GameObject` (from `parseSingle`), a string (from `parseDanceStyle`), or
`undefined` (a missing positional argument of an action call). -/
inductive PVal where
  | obj (g : GameObject)
  | str (s : List Char)
  | undef
deriving DecidableEq

/-- A JavaScript value an action invocation can produce: a string, or
`undefined` (for a function without a `return`). -/
inductive JSVal where
  | str (s : List Char)
  | undef
deriving DecidableEq

/-- The outcome of a `parse` call: a returned value, or a thrown
`TypeError` (modelled abstractly). -/
inductive POutcome where
  | thrown
  | ret (v : JSVal)
deriving DecidableEq

/-- Positional argument access of a JavaScript call: a parameter beyond
the supplied arguments is `undefined`. -/
def argD (ps : List PVal) (i : Nat) : PVal := ps.getD i PVal.undef

/-- `x.name.join(' ')` for a parameter `x`: defined for a `GameObject`;
for `undefined` (no `.name`) or a string (whose `.name` is `undefined`,
so `.join` throws) the access throws, modelled as `none`. -/
def joinName : PVal → Option (List Char)
  | PVal.obj g => some (joinSp g.name)
  | _ => none

/-- Template-literal interpolation `${x}` of a parameter value. -/
def render : PVal → List Char
  | PVal.str s => s
  | PVal.undef => "undefined".data
  | PVal.obj _ => "[object Object]".data

/-- `actionTake` (source lines 83–85). -/
def actionTake (ps : List PVal) : Option JSVal :=
  (joinName (argD ps 0)).map (fun n => JSVal.str ("You take the ".data ++ n))

/-- `actionTakeFrom` (source lines 86–88). -/
def actionTakeFrom (ps : List PVal) : Option JSVal :=
  match joinName (argD ps 0), joinName (argD ps 1) with
  | some o, some c =>
    some (JSVal.str ("You take the ".data ++ o ++ " from the ".data ++ c))
  | _, _ => none

/-- `actionGive` (source lines 89–91): parameters `(recipient, object)`. -/
def actionGive (ps : List PVal) : Option JSVal :=
  match joinName (argD ps 1), joinName (argD ps 0) with
  | some o, some r =>
    some (JSVal.str ("You give the ".data ++ o ++ " to the ".data ++ r))
  | _, _ => none

/-- `actionGiveReversed` (source lines 92–94): calls `actionGive` with the
parameters swapped and, lacking a `return`, yields `undefined`. -/
def actionGiveReversed (ps : List PVal) : Option JSVal :=
  (actionGive [argD ps 1, argD ps 0]).map (fun _ => JSVal.undef)

/-- `actionDance` (source lines 95–97). -/
def actionDance (_ : List PVal) : Option JSVal :=
  some (JSVal.str "You flail around wildly. Everyone judges you.".data)

/-- `actionDanceWithStyle` (source lines 98–100); interpolating a
non-string style cannot throw. -/
def actionDanceWithStyle (ps : List PVal) : Option JSVal :=
  some (JSVal.str
    ("You dance the ".data ++ render (argD ps 0) ++ " very well".data))

/-- `actionPut` (source lines 101–103). -/
def actionPut (ps : List PVal) : Option JSVal :=
  match joinName (argD ps 0), joinName (argD ps 1) with
  | some o, some s =>
    some (JSVal.str ("You put the ".data ++ o ++ " on the ".data ++ s))
  | _, _ => none

/-- The `Verb` class (source lines 32–37): synonym list plus the ordered
rule/action map (a JavaScript `Map` iterates in insertion order). -/
structure Verb where
  name : List (List Char)
  ruleActionMap : List (List Char × (List PVal → Option JSVal))

/-- The verb table (source lines 41–70). -/
def verbs : List Verb :=
  [⟨["give".data],
    [("single single".data, actionGive),
     ("single \"to\" single".data, actionGiveReversed)]⟩,
   ⟨["pick".data],
    [("\"up\" single".data, actionTake),
     ("\"up\" single \"on\" single".data, actionTakeFrom)]⟩,
   ⟨["dance".data],
    [("".data, actionDance),
     ("dance_style".data, actionDanceWithStyle)]⟩,
   ⟨["put".data, "place".data],
    [("single \"on\" single".data, actionPut)]⟩,
   ⟨["gain".data],
    [("\"possession of\" single".data, actionTake)]⟩]

/-- `tokenParsingFunctionMap` (source lines 74–77), with each resolver's
result injected into `PVal`. -/
def tokenParsingFunctionMap :
    List (List Char × (List (List Char) → Nat → ResolveResult PVal)) :=
  [("single".data, fun toks i =>
      let r := parseSingle toks i
      ⟨r.result.map PVal.obj, r.index⟩),
   ("dance_style".data, fun toks i =>
      let r := parseDanceStyle toks i
      ⟨r.result.map PVal.str, r.index⟩)]

/-- The rule-walking loop of `parse` (source lines 375–429), entered about
to read rule-token index `ri` with the input cursor at `ii`.  Returns the
final rule index, final input index, and accumulated action parameters.
A literal compares `ruleToken.value === inputToken` (`none` models the
`null` of an exhausted cursor); a symbol is looked up in
`tokenParsingFunctionMap` and, on success, the resolver's value is
appended and its cursor position adopted; any failure leaves the loop
(`break`), with the input index wherever the step left it. -/
def walkRule (toks : List (List Char)) : List Token → Nat → Nat →
    List PVal → Nat × Nat × List PVal
  | [], ri, ii, ps => (ri, ii, ps)
  | tok :: rts, ri, ii, ps =>
    if tok.type = TT_WORD then
      if tok.value = toks.get? ii then walkRule toks rts (ri + 1) (ii + 1) ps
      else (ri, ii, ps)
    else
      match tokenParsingFunctionMap.lookup tok.type with
      | none => (ri, ii, ps)
      | some f =>
        let r := f toks ii
        match r.result with
        | Except.ok v => walkRule toks rts (ri + 1) r.index (ps ++ [v])
        | Except.error _ => (ri, r.index, ps)

/-- The match test of source line 432: after the walk,
`ruleTokens.lookAhead() === null && inputTokens.currentToken() === null`. -/
def ruleAttemptMatched (rt : List Token) (toks : List (List Char)) : Bool :=
  (rt.get? ((walkRule toks rt 0 1 []).1 + 1)).isNone &&
    (toks.get? (walkRule toks rt 0 1 []).2.1).isNone

/-- Invoke a bound action (source line 437); a `none` result is a thrown
`TypeError` inside the action, which propagates out of `parse`. -/
def runAction (act : List PVal → Option JSVal) (ps : List PVal) : POutcome :=
  match act ps with
  | none => POutcome.thrown
  | some v => POutcome.ret v

/-- The rule loop of `parse` for one verb (source lines 359–452): each
attempt restarts the input cursor at index 1 (source line 364), walks the
rule, and on the match test passing invokes the action with the
accumulated parameters. -/
def tryRules (ras : List (List Char × (List PVal → Option JSVal)))
    (toks : List (List Char)) : Option POutcome :=
  match ras with
  | [] => none
  | (rs, act) :: rest =>
    if ruleAttemptMatched (tokenizeRule rs) toks then
      some (runAction act (walkRule toks (tokenizeRule rs) 0 1 []).2.2)
    else tryRules rest toks

/-- `verb.name.includes(inputVerb)` (source line 354); `includes` of a
`null` verb (empty input) is `false` against a list of strings. -/
def verbNameMatches (vb : Verb) (inputVerb : Option (List Char)) : Bool :=
  match inputVerb with
  | some w => vb.name.contains w
  | none => false

/-- The verb loop of `parse` (source lines 352–454). -/
def tryVerbs (vs : List Verb) (toks : List (List Char))
    (inputVerb : Option (List Char)) : Option POutcome :=
  match vs with
  | [] => none
  | vb :: rest =>
    if verbNameMatches vb inputVerb then
      match tryRules vb.ruleActionMap toks with
      | some o => some o
      | none => tryVerbs rest toks inputVerb
    else tryVerbs rest toks inputVerb

/-- The fixed not-understood sentinel (source line 458). -/
def notUnderstood : JSVal :=
  JSVal.str ("I don".data ++ apos :: "t understand.".data)

/-- `parse` (source lines 342–459): tokenize, take the first token as the
verb, try every verb whose synonyms contain it, and fall back to the
sentinel. -/
def parse (s : List Char) : POutcome :=
  match tryVerbs verbs (tokenizeInputString s)
      ((tokenizeInputString s).get? 0) with
  | some o => o
  | none => POutcome.ret notUnderstood

/-! ### Specification-side definitions

The following definitions are written from the specification's wording (not
from the source) and are used to compare the implementation against the
spec: a word-level normalizer, the word-level article-deletion pass that
characterizes the implementation, and the run-length score of the entity
disambiguator. -/

/-- Whether a word is one of the configured articles `a`, `an`, `the`. -/
def isArticleW (w : List Char) : Bool :=
  w = "a".data || w = "an".data || w = "the".data

/-- The whitespace-separated words of a string (leading, trailing and
repeated whitespace ignored). -/
def wordsOf (l : List Char) : List (List Char) :=
  match l with
  | [] => []
  | c :: cs =>
    if isWs c then wordsOf cs
    else if headIsWs cs then [c] :: wordsOf cs
    else
      match wordsOf cs with
      | w :: ws => (c :: w) :: ws
      | [] => [[c]]

/-- Modelled from the spec: the normalizer contract of §4.1 — trim,
lowercase, split on whitespace, and delete every standalone article
word. -/
def specTokenize (s : List Char) : List (List Char) :=
  (wordsOf (lowerStr (trim s))).filter (fun w => !isArticleW w)

/-- The word-level article-deletion pass that the single-pass regex
actually performs: an article is deleted only when `avail` (the separator
before it was not consumed by a previous deletion) and it is not the last
word; deleting consumes the following separator. -/
def remArt : Bool → List (List Char) → List (List Char)
  | _, [] => []
  | _, [w] => [w]
  | avail, w :: ws =>
    if avail && isArticleW w then remArt false ws else w :: remArt true ws

/-- Modelled from the spec: the §4.5 score of a candidate — the length of
the contiguous run of input tokens, from position `i`, that are members of
the candidate's name-token set. -/
def specRunScoreGo (name : List (List Char)) : List (List Char) → Nat
  | [] => 0
  | t :: rest => if name.contains t then 1 + specRunScoreGo name rest else 0

/-- The spec's run score from starting index `i`. -/
def specRunScore (name : List (List Char)) (toks : List (List Char))
    (i : Nat) : Nat :=
  specRunScoreGo name (toks.drop i)

/-- The maximum `scanScore` over a candidate list (0 when none is
positive). -/
def maxScore (objs : List GameObject) (toks : List (List Char)) (i : Nat) :
    Nat :=
  objs.foldl (fun m g => max m (scanScore g.name toks i)) 0

/-- The candidates attaining the (positive) maximum score, in list
order. -/
def topScorers (objs : List GameObject) (toks : List (List Char)) (i : Nat) :
    List GameObject :=
  objs.filter (fun g =>
    decide (0 < scanScore g.name toks i ∧
      scanScore g.name toks i = maxScore objs toks i))

/-- Interleave a first word with (separator, word) pairs: the canonical
decomposition of a trimmed nonempty string into words and whitespace
runs. -/
def glue : List Char → List (List Char × List Char) → List Char
  | w, [] => w
  | w, (s, w2) :: t => w ++ s ++ glue w2 t

/-- A word of the decomposition: nonempty, no whitespace. -/
def validWord (w : List Char) : Prop :=
  w ≠ [] ∧ ∀ c ∈ w, isWs c = false

/-- A separator of the decomposition: nonempty, all whitespace. -/
def validSep (s : List Char) : Prop :=
  s ≠ [] ∧ ∀ c ∈ s, isWs c = true

/-- Validity of the (separator, word) pairs of a decomposition. -/
def validRest (rest : List (List Char × List Char)) : Prop :=
  ∀ p ∈ rest, validSep p.1 ∧ validWord p.2

/-! ### Basic lemmas -/

/-- The part scan of `tokenizeRule` yields nothing on an all-whitespace
string (matching the `null` return of the regex match). -/
theorem rulePartsF_allWs : ∀ (fuel : Nat) (l : List Char),
    (∀ c ∈ l, isWs c = true) → rulePartsF fuel l = [] := by
  intro fuel
  induction fuel with
  | zero => intro l _; cases l <;> rfl
  | succ n ih =>
    intro l h
    cases l with
    | nil => rfl
    | cons c cs =>
      have hc : isWs c = true := h c (by simp)
      have hq : ¬ (c = '"') := by
        intro he; subst he; exact absurd hc (by decide)
      unfold rulePartsF
      rw [if_neg hq, if_pos hc]
      exact ih cs (fun d hd => h d (by simp [hd]))

/-- `splitSp` always returns at least one token. -/
theorem splitSp_ne_nil : ∀ l : List Char, splitSp l ≠ [] := by
  intro l
  induction l with
  | nil => simp [splitSp]
  | cons c cs ih =>
    unfold splitSp
    by_cases hc : c = ' '
    · rw [if_pos hc]; simp
    · rw [if_neg hc]
      rcases hs : splitSp cs with _ | ⟨t, ts⟩
      · simp
      · simp

/-- Trimming an all-whitespace string yields the empty string. -/
theorem trim_allWs {s : List Char} (h : ∀ c ∈ s, isWs c = true) :
    trim s = [] := by
  unfold trim
  rw [List.dropWhile_eq_nil_iff.mpr (fun x hx => h x hx)]
  rfl

/-- `tryVerbs` yields nothing when no verb's synonyms match. -/
theorem tryVerbs_eq_none (toks : List (List Char))
    (v : Option (List Char)) :
    ∀ vs : List Verb, (∀ vb ∈ vs, verbNameMatches vb v = false) →
      tryVerbs vs toks v = none := by
  intro vs
  induction vs with
  | nil => intro _; rfl
  | cons vb rest ih =>
    intro h
    unfold tryVerbs
    rw [h vb (by simp)]
    simp only [Bool.false_eq_true, if_false]
    exact ih (fun x hx => h x (by simp [hx]))

/-! ### Claims C7, C8, C2, C1 -/

/-- C7: the rule compiler maps the empty pattern and every all-whitespace
pattern to the empty token sequence, and maps `'"up" single "on" single'`
to exactly `[Literal(up), Symbol(single), Literal(on), Symbol(single)]`:
each word in a quoted span becomes one literal token and each bare segment
one symbol token named after it. -/
theorem c7_tokenizeRule_examples :
    tokenizeRule "".data = [] ∧
    (∀ l : List Char, (∀ c ∈ l, isWs c = true) → tokenizeRule l = []) ∧
    tokenizeRule "\"up\" single \"on\" single".data =
      [Token.mk TT_WORD (some "up".data), Token.mk "single".data none,
       Token.mk TT_WORD (some "on".data), Token.mk "single".data none] := by
  refine ⟨rfl, ?_, rfl⟩
  intro l h
  unfold tokenizeRule ruleParts
  rw [rulePartsF_allWs l.length l h]
  rfl

/-- Witness for C7's all-whitespace case at the concrete pattern `"  "`. -/
theorem c7_tokenizeRule_examples_witness :
    tokenizeRule "  ".data = [] :=
  c7_tokenizeRule_examples.2.1 "  ".data (by decide)

/-- C8: on input `give old man key`, the first `single` resolves to the
entity `{old, man}` (score 2, beating `{old, rusty, key}` at score 1) and
advances the cursor from 1 to 3; the second `single` resolves the
remaining token `key` uniquely to `{old, rusty, key}` (score 1, with
`{old, man}` at 0); the rule matches with the two entities as ordered
parameters. -/
theorem c8_old_man_key_scenario :
    scanScore ["old".data, "man".data]
      (tokenizeInputString "give old man key".data) 1 = 2 ∧
    scanScore ["old".data, "rusty".data, "key".data]
      (tokenizeInputString "give old man key".data) 1 = 1 ∧
    parseSingle (tokenizeInputString "give old man key".data) 1 =
      ⟨Except.ok ⟨["old".data, "man".data]⟩, 3⟩ ∧
    scanScore ["old".data, "rusty".data, "key".data]
      (tokenizeInputString "give old man key".data) 3 = 1 ∧
    scanScore ["old".data, "man".data]
      (tokenizeInputString "give old man key".data) 3 = 0 ∧
    parseSingle (tokenizeInputString "give old man key".data) 3 =
      ⟨Except.ok ⟨["old".data, "rusty".data, "key".data]⟩, 4⟩ ∧
    parse "give old man key".data =
      POutcome.ret
        (JSVal.str "You give the old rusty key to the old man".data) :=
  ⟨rfl, rfl, rfl, rfl, rfl, rfl, rfl⟩

/-- C2 (code bug): `parse 'give old man'` throws a `TypeError`: the first
`single` of rule `'single single'` consumes the whole input, the second
fails with `no objects found`, yet the both-cursors-exhausted test then
passes and `actionGive` is invoked with a single argument, so
`object.name` is an access on `undefined`. -/
theorem c2_parse_throws_on_give_old_man :
    parse "give old man".data = POutcome.thrown := rfl

/-- C1 (code bug): on `give old man`, the second rule-token step of
`'single single'` fails (the resolver returns `no objects found`), yet the
attempt is still treated as matched and the bound action is invoked with
the single accumulated parameter, throwing. -/
theorem c1_failed_step_still_invokes_action :
    (parseSingle (tokenizeInputString "give old man".data) 3).result =
      Except.error "no objects found".data ∧
    walkRule (tokenizeInputString "give old man".data)
      (tokenizeRule "single single".data) 0 1 [] =
      (1, 3, [PVal.obj ⟨["old".data, "man".data]⟩]) ∧
    ruleAttemptMatched (tokenizeRule "single single".data)
      (tokenizeInputString "give old man".data) = true ∧
    tryRules [("single single".data, actionGive)]
      (tokenizeInputString "give old man".data) = some POutcome.thrown :=
  ⟨rfl, rfl, rfl, rfl⟩

/-! ### Claim C4 -/

/-- C4: a rule attempt is considered matched exactly when, after walking
the rule, the rule cursor's look-ahead and the input cursor's current
token are both `null` (both cursors exhausted); in particular an attempt
that leaves input tokens unread, or rule tokens unconsumed, is not a
match and the dispatcher moves on to the next rule. -/
theorem c4_match_requires_both_cursors_exhausted
    (rs : List Char) (act : List PVal → Option JSVal)
    (rest : List (List Char × (List PVal → Option JSVal)))
    (toks : List (List Char)) :
    (ruleAttemptMatched (tokenizeRule rs) toks = true ↔
      ((tokenizeRule rs).get?
          ((walkRule toks (tokenizeRule rs) 0 1 []).1 + 1) = none ∧
        toks.get? (walkRule toks (tokenizeRule rs) 0 1 []).2.1 = none)) ∧
    (toks.get? (walkRule toks (tokenizeRule rs) 0 1 []).2.1 ≠ none →
      tryRules ((rs, act) :: rest) toks = tryRules rest toks) ∧
    ((tokenizeRule rs).get?
        ((walkRule toks (tokenizeRule rs) 0 1 []).1 + 1) ≠ none →
      tryRules ((rs, act) :: rest) toks = tryRules rest toks) := by
  have hiff : ruleAttemptMatched (tokenizeRule rs) toks = true ↔
      ((tokenizeRule rs).get?
          ((walkRule toks (tokenizeRule rs) 0 1 []).1 + 1) = none ∧
        toks.get? (walkRule toks (tokenizeRule rs) 0 1 []).2.1 = none) := by
    unfold ruleAttemptMatched
    rw [Bool.and_eq_true, Option.isNone_iff_eq_none, Option.isNone_iff_eq_none]
  refine ⟨hiff, ?_, ?_⟩
  · intro h
    have hf : ruleAttemptMatched (tokenizeRule rs) toks = false := by
      rw [Bool.eq_false_iff]
      intro ht
      exact h (hiff.mp ht).2
    unfold tryRules
    rw [hf]
    simp only [Bool.false_eq_true, if_false]
    cases rest <;> rfl
  · intro h
    have hf : ruleAttemptMatched (tokenizeRule rs) toks = false := by
      rw [Bool.eq_false_iff]
      intro ht
      exact h (hiff.mp ht).1
    unfold tryRules
    rw [hf]
    simp only [Bool.false_eq_true, if_false]
    cases rest <;> rfl

/-- Witness for C4 at concrete rule attempts: a truncated input
(`pick` alone against `'"up" single'`, rule tokens remaining) and an
extended input (`dance now` against the empty rule, input tokens
remaining) both fall through to the next rule. -/
theorem c4_match_requires_both_cursors_exhausted_witness :
    tryRules [("\"up\" single".data, actionTake)]
      (tokenizeInputString "pick".data) =
      tryRules [] (tokenizeInputString "pick".data) ∧
    tryRules [("".data, actionDance)]
      (tokenizeInputString "dance now".data) =
      tryRules [] (tokenizeInputString "dance now".data) :=
  ⟨(c4_match_requires_both_cursors_exhausted "\"up\" single".data actionTake
      [] (tokenizeInputString "pick".data)).2.2 (by decide),
   (c4_match_requires_both_cursors_exhausted "".data actionDance
      [] (tokenizeInputString "dance now".data)).2.1 (by decide)⟩

/-! ### Claims C9 and C10 -/

/-- C9: an input whose first normalized token is in no verb's synonym
list yields the fixed not-understood outcome (no rule is ever attempted,
since rules are only tried under a matching verb), as does any input on
which every matching verb exhausts its rules without success; concretely,
`parse 'fly away'` is not understood. -/
theorem c9_unknown_verb_not_understood :
    (∀ s : List Char,
      (∀ vb ∈ verbs,
        verbNameMatches vb ((tokenizeInputString s).get? 0) = false) →
      parse s = POutcome.ret notUnderstood) ∧
    (∀ s : List Char,
      tryVerbs verbs (tokenizeInputString s)
        ((tokenizeInputString s).get? 0) = none →
      parse s = POutcome.ret notUnderstood) ∧
    parse "fly away".data = POutcome.ret notUnderstood := by
  have h2 : ∀ s : List Char,
      tryVerbs verbs (tokenizeInputString s)
        ((tokenizeInputString s).get? 0) = none →
      parse s = POutcome.ret notUnderstood := by
    intro s h
    unfold parse
    rw [h]
  refine ⟨?_, h2, rfl⟩
  intro s h
  exact h2 s (tryVerbs_eq_none _ _ verbs h)

/-- Witness for C9 at the concrete input `fly away`. -/
theorem c9_unknown_verb_not_understood_witness :
    parse "fly away".data = POutcome.ret notUnderstood :=
  c9_unknown_verb_not_understood.1 "fly away".data (by decide)

/-- C10: tokenizing the empty string or an all-whitespace string yields
the one-element sequence containing the empty token (never the empty
sequence — splitting always yields at least one element), and `parse`
takes the empty token as the verb key, matches no verb, and returns the
not-understood sentinel. -/
theorem c10_empty_input_behavior :
    (∀ s : List Char, tokenizeInputString s ≠ []) ∧
    (∀ s : List Char, (∀ c ∈ s, isWs c = true) →
      tokenizeInputString s = [[]] ∧
      parse s = POutcome.ret notUnderstood) := by
  refine ⟨fun s => splitSp_ne_nil _, ?_⟩
  intro s h
  have ht : tokenizeInputString s = [[]] := by
    unfold tokenizeInputString
    rw [trim_allWs h]
    rfl
  refine ⟨ht, ?_⟩
  unfold parse
  rw [ht]
  rfl

/-- Witness for C10 at the empty string and a two-space string. -/
theorem c10_empty_input_behavior_witness :
    (tokenizeInputString "".data = [[]] ∧
      parse "".data = POutcome.ret notUnderstood) ∧
    (tokenizeInputString "  ".data = [[]] ∧
      parse "  ".data = POutcome.ret notUnderstood) :=
  ⟨c10_empty_input_behavior.2 "".data (by decide),
   c10_empty_input_behavior.2 "  ".data (by decide)⟩

/-! ### Claim C3: the entity disambiguator -/

/-- The running maximum over an appended candidate. -/
theorem maxScore_append (objs : List GameObject) (g : GameObject)
    (toks : List (List Char)) (i : Nat) :
    maxScore (objs ++ [g]) toks i =
      max (maxScore objs toks i) (scanScore g.name toks i) := by
  unfold maxScore
  rw [List.foldl_append]
  rfl

/-- A left fold by `max` is at least its initial value. -/
theorem foldl_max_init_le (toks : List (List Char)) (i : Nat) :
    ∀ (objs : List GameObject) (m : Nat),
      m ≤ objs.foldl (fun acc g => max acc (scanScore g.name toks i)) m := by
  intro objs
  induction objs with
  | nil => intro m; simp
  | cons g rest ih =>
    intro m
    exact le_trans (le_max_left _ _) (ih _)

/-- Every candidate's score is bounded by the fold of `max`. -/
theorem mem_le_foldl_max (toks : List (List Char)) (i : Nat) :
    ∀ (objs : List GameObject) (m : Nat) (a : GameObject), a ∈ objs →
      scanScore a.name toks i ≤
        objs.foldl (fun acc g => max acc (scanScore g.name toks i)) m := by
  intro objs
  induction objs with
  | nil => intro m a ha; cases ha
  | cons g rest ih =>
    intro m a ha
    rcases List.mem_cons.mp ha with h | h
    · subst h
      exact le_trans (le_max_right _ _) (foldl_max_init_le toks i rest _)
    · exact ih _ a h

/-- Every candidate's score is at most the maximum score. -/
theorem scanScore_le_maxScore (toks : List (List Char)) (i : Nat)
    (objs : List GameObject) (a : GameObject) (ha : a ∈ objs) :
    scanScore a.name toks i ≤ maxScore objs toks i :=
  mem_le_foldl_max toks i objs 0 a ha

/-- The loop of `parseSingle` computes exactly the positive maximum score
and, in candidate order, the list of candidates attaining it, each paired
with the index one past its scored run. -/
theorem psFold_spec (toks : List (List Char)) (i : Nat)
    (objs : List GameObject) :
    objs.foldl (psStep toks i) ⟨[], 0⟩ =
      ⟨(topScorers objs toks i).map
          (fun g => (g, i + scanScore g.name toks i)),
        maxScore objs toks i⟩ := by
  induction objs using List.reverseRecOn with
  | nil => rfl
  | append_singleton as g ih =>
    rw [List.foldl_append, ih]
    simp only [List.foldl_cons, List.foldl_nil]
    unfold psStep
    simp only []
    rcases Nat.lt_or_ge 0 (scanScore g.name toks i) with hpos | hzero
    · rw [if_pos (by omega)]
      by_cases heq : scanScore g.name toks i = maxScore as toks i
      · rw [if_pos heq]
        have hmax : maxScore (as ++ [g]) toks i = maxScore as toks i := by
          rw [maxScore_append]
          omega
        unfold topScorers
        rw [List.filter_append]
        simp only [hmax]
        have hg : (List.filter
            (fun g_1 => decide (0 < scanScore g_1.name toks i ∧
              scanScore g_1.name toks i = maxScore as toks i)) [g]) = [g] := by
          have hposM : 0 < maxScore as toks i := by omega
          simp [List.filter, heq, hposM]
        rw [hg, List.map_append]
        simp
      · rw [if_neg heq]
        by_cases hgt : scanScore g.name toks i > maxScore as toks i
        · rw [if_pos hgt]
          have hmax : maxScore (as ++ [g]) toks i =
              scanScore g.name toks i := by
            rw [maxScore_append]
            omega
          unfold topScorers
          rw [List.filter_append]
          simp only [hmax]
          have hnil : (List.filter
              (fun a => decide (0 < scanScore a.name toks i ∧
                scanScore a.name toks i = scanScore g.name toks i)) as)
              = [] := by
            rw [List.filter_eq_nil]
            intro a ha
            have := scanScore_le_maxScore toks i as a ha
            simp only [decide_eq_true_eq, not_and]
            intro _
            omega
          rw [hnil]
          have hg : (List.filter
              (fun a => decide (0 < scanScore a.name toks i ∧
                scanScore a.name toks i = scanScore g.name toks i)) [g])
              = [g] := by
            simp [List.filter, hpos]
          rw [hg]
          simp
        · rw [if_neg hgt]
          have hmax : maxScore (as ++ [g]) toks i = maxScore as toks i := by
            rw [maxScore_append]
            omega
          unfold topScorers
          rw [List.filter_append]
          simp only [hmax]
          have hg : (List.filter
              (fun a => decide (0 < scanScore a.name toks i ∧
                scanScore a.name toks i = maxScore as toks i)) [g]) = [] := by
            simp [List.filter, heq]
          rw [hg]
          simp
    · rw [if_neg (by omega)]
      have hz : scanScore g.name toks i = 0 := by omega
      have hmax : maxScore (as ++ [g]) toks i = maxScore as toks i := by
        rw [maxScore_append]
        omega
      unfold topScorers
      rw [List.filter_append]
      simp only [hmax]
      have hg : (List.filter
          (fun a => decide (0 < scanScore a.name toks i ∧
            scanScore a.name toks i = maxScore as toks i)) [g]) = [] := by
        simp [List.filter, hz]
      rw [hg]
      simp

/-- With no empty token in range, the implementation's truthiness-guarded
run score agrees with the spec's membership run score. -/
theorem scanScoreGo_eq_specRunScoreGo (name : List (List Char)) :
    ∀ l : List (List Char), (∀ w ∈ l, w ≠ []) →
      scanScoreGo name l = specRunScoreGo name l := by
  intro l
  induction l with
  | nil => intro _; rfl
  | cons t rest ih =>
    intro h
    unfold scanScoreGo specRunScoreGo
    rw [if_neg (h t (by simp))]
    by_cases hc : name.contains t
    · rw [if_pos hc, if_pos hc, ih (fun w hw => h w (by simp [hw]))]
    · rw [if_neg hc, if_neg hc]

/-- C3: `parseSingle` scores each candidate by the length of the
contiguous run of input tokens belonging to its name set (restarting at
the call's start index for each candidate; on token lists without empty
tokens this equals the spec's run score); if exactly one candidate attains
the maximum positive score it is returned with the cursor advanced exactly
past its run; a tie at the maximum yields the ambiguous-reference failure
with no candidate chosen, and an all-zero score yields the
no-matching-reference failure. -/
theorem c3_parseSingle_selection (objs : List GameObject)
    (toks : List (List Char)) (i : Nat) :
    ((∀ w ∈ toks, w ≠ []) → ∀ g : GameObject,
      scanScore g.name toks i = specRunScore g.name toks i) ∧
    (∀ g : GameObject, 0 < maxScore objs toks i →
      topScorers objs toks i = [g] →
      parseSingleCore objs toks i =
        ⟨Except.ok g, i + maxScore objs toks i⟩) ∧
    (0 < maxScore objs toks i → 2 ≤ (topScorers objs toks i).length →
      (parseSingleCore objs toks i).result =
        Except.error "multiple objects found".data) ∧
    (maxScore objs toks i = 0 →
      (parseSingleCore objs toks i).result =
        Except.error "no objects found".data) := by
  refine ⟨?_, ?_, ?_, ?_⟩
  · intro h g
    unfold scanScore specRunScore
    exact scanScoreGo_eq_specRunScoreGo g.name (toks.drop i)
      (fun w hw => h w (List.mem_of_mem_drop hw))
  · intro g hpos htop
    have hgmem : g ∈ objs.filter (fun a =>
        decide (0 < scanScore a.name toks i ∧
          scanScore a.name toks i = maxScore objs toks i)) := by
      have hx : g ∈ topScorers objs toks i := by
        rw [htop]; exact List.mem_singleton.mpr rfl
      unfold topScorers at hx
      exact hx
    have hcond := List.of_mem_filter hgmem
    have hsc : scanScore g.name toks i = maxScore objs toks i :=
      (of_decide_eq_true hcond).2
    unfold parseSingleCore
    rw [psFold_spec, htop]
    simp only [List.map_cons, List.map_nil]
    rw [if_pos (by simpa using hpos)]
    simp [hsc]
  · intro hpos hlen
    unfold parseSingleCore
    rw [psFold_spec]
    rcases hts : topScorers objs toks i with _ | ⟨a, _ | ⟨b, t⟩⟩
    · rw [hts] at hlen; simp at hlen
    · rw [hts] at hlen; simp at hlen
    · simp only [List.map_cons]
      rw [if_pos (by simpa using hpos)]
  · intro h0
    unfold parseSingleCore
    rw [psFold_spec]
    rw [if_neg (by simp [h0])]

/-- Witness for C3 on the room's objects with input `give old man key` at
cursor position 1: the unique-maximum branch picks `{old, man}` and the
score agrees with the spec's run score. -/
theorem c3_parseSingle_selection_witness :
    parseSingleCore getGameObjectsFromCurrentRoom
      (tokenizeInputString "give old man key".data) 1 =
      ⟨Except.ok ⟨["old".data, "man".data]⟩,
        1 + maxScore getGameObjectsFromCurrentRoom
          (tokenizeInputString "give old man key".data) 1⟩ ∧
    scanScore ["old".data, "man".data]
      (tokenizeInputString "give old man key".data) 1 =
      specRunScore ["old".data, "man".data]
        (tokenizeInputString "give old man key".data) 1 :=
  ⟨(c3_parseSingle_selection getGameObjectsFromCurrentRoom
      (tokenizeInputString "give old man key".data) 1).2.1
      ⟨["old".data, "man".data]⟩ (by decide) (by decide),
   (c3_parseSingle_selection getGameObjectsFromCurrentRoom
      (tokenizeInputString "give old man key".data) 1).1 (by decide)
      ⟨["old".data, "man".data]⟩⟩

/-! ### Character-level lemmas for the normalizer -/

/-- `Char.ofNat` below the surrogate range keeps the code point. -/
theorem toNat_ofNat_small (n : Nat) (h : n < 55296) :
    (Char.ofNat n).toNat = n := by
  unfold Char.ofNat
  rw [dif_pos (Or.inl h)]
  unfold Char.ofNatAux Char.toNat
  simp [UInt32.toNat, BitVec.toNat_ofNatLt]

/-- Unfolding of the whitespace test into a proposition on code points. -/
theorem isWs_iff (c : Char) : isWs c = true ↔
    ((9 ≤ c.toNat ∧ c.toNat ≤ 13) ∨ c.toNat = 32 ∨ c.toNat = 160 ∨
      c.toNat = 5760 ∨ (8192 ≤ c.toNat ∧ c.toNat ≤ 8202) ∨
      c.toNat = 8232 ∨ c.toNat = 8233 ∨ c.toNat = 8239 ∨ c.toNat = 8287 ∨
      c.toNat = 12288 ∨ c.toNat = 65279) := by
  unfold isWs
  simp [Bool.or_eq_true, Bool.and_eq_true, decide_eq_true_eq]
  tauto

/-- An ASCII letter is not whitespace. -/
theorem isWs_false_of_letter {c : Char} (h1 : 65 ≤ c.toNat)
    (h2 : c.toNat ≤ 122) : isWs c = false := by
  rw [Bool.eq_false_iff]
  intro hx
  rw [isWs_iff] at hx
  omega

/-- Lowercasing does not change whether a character is whitespace. -/
theorem isWs_jsToLower (c : Char) : isWs (jsToLower c) = isWs c := by
  unfold jsToLower
  by_cases h : 65 ≤ c.toNat ∧ c.toNat ≤ 90
  · rw [if_pos h]
    have h32 : (Char.ofNat (c.toNat + 32)).toNat = c.toNat + 32 :=
      toNat_ofNat_small _ (by omega)
    rw [isWs_false_of_letter (c := Char.ofNat (c.toNat + 32))
        (by omega) (by omega),
      isWs_false_of_letter (by omega) (by omega)]
  · rw [if_neg h]

/-- Lowercasing is idempotent. -/
theorem jsToLower_idem (c : Char) : jsToLower (jsToLower c) = jsToLower c := by
  unfold jsToLower
  by_cases h : 65 ≤ c.toNat ∧ c.toNat ≤ 90
  · rw [if_pos h]
    have h32 : (Char.ofNat (c.toNat + 32)).toNat = c.toNat + 32 :=
      toNat_ofNat_small _ (by omega)
    rw [if_neg (by rw [h32]; omega)]
  · rw [if_neg h, if_neg h]

/-- The space character is whitespace. -/
theorem isWs_space : isWs ' ' = true := by decide

/-- A whitespace character is not changed by lowercasing. -/
theorem jsToLower_of_ws {c : Char} (h : isWs c = true) : jsToLower c = c := by
  unfold jsToLower
  rw [if_neg]
  intro hc
  unfold isWs at h
  simp only [decide_eq_true_eq, Bool.or_eq_true, Bool.and_eq_true] at h
  omega

/-! ### Equation lemmas for the fueled article scan -/

/-- `stripArticle` consumes at least one character. -/
theorem stripArticle_lt {x r2 : List Char} (hs : stripArticle x = some r2) :
    r2.length < x.length := by
  unfold stripArticle at hs
  repeat' split at hs
  all_goals cases hs <;> simp only [List.length_cons] <;> omega

/-- A successful article match consumes at least one character. -/
theorem matchArticleAt_lt {x rest : List Char}
    (hm : matchArticleAt x = some rest) : rest.length < x.length := by
  unfold matchArticleAt at hm
  split at hm
  · cases hm
  · rename_i d ds htake
    split at hm
    · cases hm
    · rename_i r2 hstrip
      split at hm
      · cases hm
      · cases hm
        have h2 := stripArticle_lt hstrip
        have h3 : (r2.dropWhile isWs).length ≤ r2.length :=
          (List.dropWhile_suffix isWs).sublist.length_le
        have h4 := congrArg List.length
          (List.takeWhile_append_dropWhile isWs x)
        simp only [List.length_append] at h4
        rw [htake] at h4
        simp only [List.length_cons] at h4
        omega

/-- One step of the fueled article scan. -/
theorem replaceArticlesF_succ (f : Nat) (c : Char) (cs : List Char) :
    replaceArticlesF (f + 1) (c :: cs) =
      match matchArticleAt (c :: cs) with
      | some rest => ' ' :: replaceArticlesF f rest
      | none => c :: replaceArticlesF f cs := rfl

/-- The article scan ignores extra fuel. -/
theorem replaceArticlesF_congr : ∀ (n : Nat) (l : List Char) (f1 f2 : Nat),
    l.length ≤ n → l.length ≤ f1 → l.length ≤ f2 →
    replaceArticlesF f1 l = replaceArticlesF f2 l := by
  intro n
  induction n with
  | zero =>
    intro l f1 f2 hn _ _
    have : l = [] := List.length_eq_zero.mp (by omega)
    subst this
    cases f1 <;> cases f2 <;> rfl
  | succ m ih =>
    intro l f1 f2 hn h1 h2
    cases l with
    | nil => cases f1 <;> cases f2 <;> rfl
    | cons c cs =>
      simp only [List.length_cons] at hn h1 h2
      rcases f1 with _ | f1'
      · omega
      rcases f2 with _ | f2'
      · omega
      show replaceArticlesF (f1' + 1) (c :: cs) =
        replaceArticlesF (f2' + 1) (c :: cs)
      rw [replaceArticlesF_succ, replaceArticlesF_succ]
      rcases hm : matchArticleAt (c :: cs) with _ | rest
      · dsimp only
        rw [ih cs f1' f2' (by omega) (by omega) (by omega)]
      · dsimp only
        have hlt := matchArticleAt_lt hm
        simp only [List.length_cons] at hlt
        rw [ih rest f1' f2' (by omega) (by omega) (by omega)]

/-- Unfolding equation of `replaceArticles` on a cons cell. -/
theorem replaceArticles_cons (c : Char) (cs : List Char) :
    replaceArticles (c :: cs) =
      match matchArticleAt (c :: cs) with
      | some rest => ' ' :: replaceArticles rest
      | none => c :: replaceArticles cs := by
  unfold replaceArticles
  simp only [List.length_cons]
  rw [replaceArticlesF_succ]
  rcases hm : matchArticleAt (c :: cs) with _ | rest
  · rfl
  · dsimp only
    have hlt := matchArticleAt_lt hm
    simp only [List.length_cons] at hlt
    rw [replaceArticlesF_congr rest.length rest cs.length rest.length
      (le_refl _) (by omega) (le_refl _)]

/-! ### The article alternation, characterized -/

/-- An article word is nonempty and contains no whitespace. -/
theorem article_chars {art : List Char} (h : isArticleW art = true) :
    art ≠ [] ∧ ∀ c ∈ art, isWs c = false := by
  unfold isArticleW at h
  simp only [Bool.or_eq_true, decide_eq_true_eq] at h
  rcases h with (h | h) | h <;> subst h <;> exact ⟨by simp, by decide⟩

/-- Successful article stripping decomposes the input as an article
followed by whitespace. -/
theorem stripArticle_some_decomp {l z : List Char}
    (hs : stripArticle l = some z) :
    ∃ art, isArticleW art = true ∧ l = art ++ z ∧ headIsWs z = true := by
  unfold stripArticle at hs
  split at hs
  · rename_i rest
    split at hs
    · cases hs
      exact ⟨"a".data, by decide, rfl, by assumption⟩
    · split at hs
      · split at hs
        · cases hs
          exact ⟨"an".data, by decide, rfl, by assumption⟩
        · cases hs
      · cases hs
  · rename_i rest
    split at hs
    · cases hs
      exact ⟨"the".data, by decide, rfl, by assumption⟩
    · cases hs
  · cases hs

/-- Stripping succeeds on an article followed by whitespace. -/
theorem stripArticle_of_article {art z : List Char}
    (hart : isArticleW art = true) (hz : headIsWs z = true) :
    stripArticle (art ++ z) = some z := by
  unfold isArticleW at hart
  simp only [Bool.or_eq_true, decide_eq_true_eq] at hart
  rcases hart with (h | h) | h <;> subst h
  · show stripArticle ('a' :: z) = some z
    unfold stripArticle
    simp [hz]
  · show stripArticle ('a' :: 'n' :: z) = some z
    unfold stripArticle
    simp [hz, show headIsWs ('n' :: z) = false from rfl]
  · show stripArticle ('t' :: 'h' :: 'e' :: z) = some z
    unfold stripArticle
    simp [hz]

/-- Stripping fails when the position starts with a non-article word that
is followed by whitespace or the end of the string. -/
theorem stripArticle_none_word_sep (w z : List Char) (hw1 : w ≠ [])
    (hw2 : ∀ c ∈ w, isWs c = false) (hart : isArticleW w = false)
    (hz : z = [] ∨ headIsWs z = true) :
    stripArticle (w ++ z) = none := by
  rcases hs : stripArticle (w ++ z) with _ | z'
  · rfl
  exfalso
  rcases stripArticle_some_decomp hs with ⟨art, hartT, heq, hz'⟩
  rcases List.append_eq_append_iff.mp heq with ⟨k, hk1, hk2⟩ | ⟨k, hk1, hk2⟩
  · -- art = w ++ k and z = k ++ z'
    rcases k with _ | ⟨d, k'⟩
    · rw [List.append_nil] at hk1
      rw [hk1] at hartT
      rw [hartT] at hart
      cases hart
    · have hd : d ∈ art := by rw [hk1]; simp
      have hdw : isWs d = false := (article_chars hartT).2 d hd
      rcases hz with hze | hze
      · rw [hze] at hk2
        cases hk2
      · rw [hk2] at hze
        simp only [List.cons_append] at hze
        have hcontra : isWs d = true := hze
        rw [hdw] at hcontra
        cases hcontra
  · -- w = art ++ k and z' = k ++ z
    rcases k with _ | ⟨d, k'⟩
    · rw [List.append_nil] at hk1
      rw [← hk1] at hartT
      rw [hartT] at hart
      cases hart
    · have hd : d ∈ w := by rw [hk1]; simp
      have hdw : isWs d = false := hw2 d hd
      rw [hk2] at hz'
      simp only [List.cons_append] at hz'
      have hcontra : isWs d = true := hz'
      rw [hdw] at hcontra
      cases hcontra

/-- Stripping fails on a whitespace-free word alone (no trailing
whitespace for the pattern's final run). -/
theorem stripArticle_none_word_end (w : List Char)
    (hw : ∀ c ∈ w, isWs c = false) : stripArticle w = none := by
  have hhead : ∀ x : List Char, (∀ c ∈ x, isWs c = false) →
      headIsWs x = false := by
    intro x hx
    cases x with
    | nil => rfl
    | cons a y => exact hx a (by simp)
  unfold stripArticle
  split
  · rename_i rest
    rw [hhead rest (fun c hc => hw c (by simp [hc]))]
    simp only [Bool.false_eq_true, if_false]
    split
    · rename_i rest2
      rw [hhead rest2 (fun c hc => hw c (by simp [hc]))]
      simp
    · rfl
  · rename_i rest
    rw [hhead rest (fun c hc => hw c (by simp [hc]))]
    simp
  · rfl

/-! ### The article match at a position, characterized -/

/-- Splitting a whitespace block followed by a non-whitespace head. -/
theorem takeWhile_ws_block (s rest : List Char)
    (hs : ∀ c ∈ s, isWs c = true) (hr : headIsWs rest = false) :
    (s ++ rest).takeWhile isWs = s ∧ (s ++ rest).dropWhile isWs = rest := by
  induction s with
  | nil =>
    simp only [List.nil_append]
    cases rest with
    | nil => exact ⟨rfl, rfl⟩
    | cons r rs =>
      have hrw : isWs r = false := hr
      rw [List.takeWhile_cons, List.dropWhile_cons, hrw]
      exact ⟨rfl, rfl⟩
  | cons a s' ih =>
    have haw : isWs a = true := hs a (by simp)
    simp only [List.cons_append, List.takeWhile_cons, List.dropWhile_cons,
      haw]
    have := ih (fun c hc => hs c (by simp [hc]))
    simp only [if_true]
    exact ⟨by rw [this.1], by rw [this.2]⟩

/-- A position that does not start with whitespace has no article match. -/
theorem matchArticleAt_none_headNonWs {l : List Char}
    (h : headIsWs l = false) : matchArticleAt l = none := by
  unfold matchArticleAt
  have : l.takeWhile isWs = [] := by
    cases l with
    | nil => rfl
    | cons c cs =>
      have : isWs c = false := h
      rw [List.takeWhile_cons, this]
      rfl
  rw [this]

/-- No article match at any position of a whitespace run followed by a
position where the article alternation fails. -/
theorem matchArticleAt_none_sep (s rest : List Char)
    (hsw : ∀ c ∈ s, isWs c = true) (hr : headIsWs rest = false)
    (hstrip : stripArticle rest = none) :
    matchArticleAt (s ++ rest) = none := by
  cases s with
  | nil =>
    simp only [List.nil_append]
    exact matchArticleAt_none_headNonWs hr
  | cons a s' =>
    obtain ⟨ht, hd⟩ := takeWhile_ws_block (a :: s') rest hsw hr
    unfold matchArticleAt
    rw [ht, hd, hstrip]

/-- The article match succeeds at a whitespace run followed by an article,
more whitespace, and a non-whitespace continuation, consuming all of
them. -/
theorem matchArticleAt_parts (s1 art s2 rest : List Char)
    (hs1 : s1 ≠ []) (hs1w : ∀ c ∈ s1, isWs c = true)
    (hart : isArticleW art = true)
    (hs2 : s2 ≠ []) (hs2w : ∀ c ∈ s2, isWs c = true)
    (hrest : headIsWs rest = false) :
    matchArticleAt (s1 ++ (art ++ (s2 ++ rest))) = some rest := by
  rcases s1 with _ | ⟨a, s1'⟩
  · cases hs1 rfl
  rcases s2 with _ | ⟨b, s2'⟩
  · cases hs2 rfl
  have hartHead : headIsWs (art ++ ((b :: s2') ++ rest)) = false := by
    obtain ⟨hne, hnw⟩ := article_chars hart
    rcases art with _ | ⟨e, art'⟩
    · cases hne rfl
    · exact hnw e (by simp)
  obtain ⟨ht1, hd1⟩ :=
    takeWhile_ws_block (a :: s1') (art ++ ((b :: s2') ++ rest)) hs1w hartHead
  unfold matchArticleAt
  rw [ht1, hd1]
  dsimp only
  have hstrip : stripArticle (art ++ ((b :: s2') ++ rest)) =
      some ((b :: s2') ++ rest) := by
    apply stripArticle_of_article hart
    show isWs b = true
    exact hs2w b (by simp)
  rw [hstrip]
  dsimp only
  obtain ⟨ht2, hd2⟩ := takeWhile_ws_block (b :: s2') rest hs2w hrest
  rw [ht2]
  dsimp only
  rw [hd2]

/-! ### Traversal lemmas for the article-deletion pass -/

/-- The scan passes over a whitespace-free block unchanged. -/
theorem replaceArticles_word (w : List Char) (z : List Char)
    (hw : ∀ c ∈ w, isWs c = false) :
    replaceArticles (w ++ z) = w ++ replaceArticles z := by
  induction w with
  | nil => rfl
  | cons c w' ih =>
    simp only [List.cons_append]
    rw [replaceArticles_cons,
      matchArticleAt_none_headNonWs (l := c :: (w' ++ z))
        (hw c (by simp) : isWs c = false)]
    rw [ih (fun d hd => hw d (by simp [hd]))]

/-- The scan leaves a whitespace-free string unchanged. -/
theorem replaceArticles_word_id (w : List Char)
    (hw : ∀ c ∈ w, isWs c = false) : replaceArticles w = w := by
  have h0 := replaceArticles_word w [] hw
  rw [List.append_nil, show replaceArticles [] = [] from rfl,
    List.append_nil] at h0
  exact h0

/-- The scan passes over a whitespace run unchanged when the following
position offers no article. -/
theorem replaceArticles_sep_skip (s rest : List Char)
    (hsw : ∀ c ∈ s, isWs c = true) (hr : headIsWs rest = false)
    (hstrip : stripArticle rest = none) :
    replaceArticles (s ++ rest) = s ++ replaceArticles rest := by
  induction s with
  | nil => rfl
  | cons a s' ih =>
    simp only [List.cons_append]
    rw [replaceArticles_cons]
    have hm : matchArticleAt (a :: (s' ++ rest)) = none := by
      have := matchArticleAt_none_sep (a :: s') rest hsw hr hstrip
      simpa using this
    rw [hm]
    rw [ih (fun c hc => hsw c (by simp [hc]))]

/-- The scan replaces whitespace–article–whitespace with a single space
when a word follows. -/
theorem replaceArticles_sep_article (s art s2 rest : List Char)
    (hs : s ≠ []) (hsw : ∀ c ∈ s, isWs c = true)
    (hart : isArticleW art = true)
    (hs2 : s2 ≠ []) (hs2w : ∀ c ∈ s2, isWs c = true)
    (hrest : headIsWs rest = false) :
    replaceArticles (s ++ (art ++ (s2 ++ rest))) =
      ' ' :: replaceArticles rest := by
  rcases s with _ | ⟨a, s'⟩
  · cases hs rfl
  simp only [List.cons_append]
  rw [replaceArticles_cons]
  have hm := matchArticleAt_parts (a :: s') art s2 rest (by simp) hsw hart
    hs2 hs2w hrest
  simp only [List.cons_append] at hm
  rw [hm]

/-! ### Traversal lemmas for whitespace collapsing and splitting -/

/-- Unfolding equation of `collapseWs` on a cons cell. -/
theorem collapseWs_cons (c : Char) (cs : List Char) :
    collapseWs (c :: cs) =
      if isWs c = true then
        if headIsWs cs = true then collapseWs cs else ' ' :: collapseWs cs
      else c :: collapseWs cs := rfl

/-- Unfolding equation of `splitSp` on a cons cell. -/
theorem splitSp_cons (c : Char) (cs : List Char) :
    splitSp (c :: cs) =
      if c = ' ' then [] :: splitSp cs
      else
        match splitSp cs with
        | t :: ts => (c :: t) :: ts
        | [] => [[c]] := rfl

/-- Collapsing passes over a whitespace-free block unchanged. -/
theorem collapseWs_word (w z : List Char)
    (hw : ∀ c ∈ w, isWs c = false) :
    collapseWs (w ++ z) = w ++ collapseWs z := by
  induction w with
  | nil => rfl
  | cons c w' ih =>
    simp only [List.cons_append]
    rw [collapseWs_cons, hw c (by simp)]
    simp only [Bool.false_eq_true, if_false]
    rw [ih (fun d hd => hw d (by simp [hd]))]

/-- Collapsing leaves a whitespace-free string unchanged. -/
theorem collapseWs_word_id (w : List Char)
    (hw : ∀ c ∈ w, isWs c = false) : collapseWs w = w := by
  have h0 := collapseWs_word w [] hw
  rw [List.append_nil, show collapseWs [] = [] from rfl,
    List.append_nil] at h0
  exact h0

/-- Collapsing turns a whitespace run followed by a word into one
space. -/
theorem collapseWs_sep (s rest : List Char) (hs : s ≠ [])
    (hsw : ∀ c ∈ s, isWs c = true) (hr : headIsWs rest = false) :
    collapseWs (s ++ rest) = ' ' :: collapseWs rest := by
  induction s with
  | nil => cases hs rfl
  | cons a s' ih =>
    simp only [List.cons_append]
    rw [collapseWs_cons, hsw a (by simp)]
    simp only [if_true]
    cases s' with
    | nil =>
      simp only [List.nil_append]
      rw [hr]
      simp
    | cons b s'' =>
      rw [show headIsWs ((b :: s'') ++ rest) = isWs b from rfl,
        hsw b (by simp)]
      simp only [if_true]
      exact ih (by simp) (fun c hc => hsw c (by simp [hc]))

/-- Splitting a space-free word followed by a space separator. -/
theorem splitSp_word_sep (w z : List Char) (hw : ∀ c ∈ w, ¬ c = ' ') :
    splitSp (w ++ ' ' :: z) = w :: splitSp z := by
  induction w with
  | nil =>
    simp only [List.nil_append]
    rw [splitSp_cons, if_pos rfl]
  | cons c w' ih =>
    simp only [List.cons_append]
    rw [splitSp_cons, if_neg (hw c (by simp)),
      ih (fun d hd => hw d (by simp [hd]))]

/-- Splitting a space-free string yields that single token. -/
theorem splitSp_word (w : List Char) (hw : ∀ c ∈ w, ¬ c = ' ') :
    splitSp w = [w] := by
  induction w with
  | nil => rfl
  | cons c w' ih =>
    rw [splitSp_cons, if_neg (hw c (by simp)),
      ih (fun d hd => hw d (by simp [hd]))]

/-- Joining the split of any string reproduces it. -/
theorem joinSp_splitSp : ∀ l : List Char, joinSp (splitSp l) = l := by
  intro l
  induction l with
  | nil => rfl
  | cons c cs ih =>
    rcases hsp : splitSp cs with _ | ⟨t, ts⟩
    · cases splitSp_ne_nil cs hsp
    rw [hsp] at ih
    unfold splitSp
    by_cases hc : c = ' '
    · rw [if_pos hc, hsp]
      subst hc
      show [] ++ ' ' :: joinSp (t :: ts) = ' ' :: cs
      rw [List.nil_append, ih]
    · rw [if_neg hc, hsp]
      dsimp only
      cases ts with
      | nil =>
        show c :: t = c :: cs
        have ht : t = cs := ih
        rw [ht]
      | cons u ts' =>
        show (c :: t) ++ ' ' :: joinSp (u :: ts') = c :: cs
        have hih : t ++ ' ' :: joinSp (u :: ts') = cs := ih
        rw [List.cons_append, hih]

/-! ### Word-splitting lemmas -/

/-- Unfolding equation of `wordsOf` on a cons cell. -/
theorem wordsOf_cons (c : Char) (cs : List Char) :
    wordsOf (c :: cs) =
      if isWs c = true then wordsOf cs
      else if headIsWs cs = true then [c] :: wordsOf cs
      else
        match wordsOf cs with
        | w :: ws => (c :: w) :: ws
        | [] => [[c]] := rfl

/-- `wordsOf` skips a leading whitespace block. -/
theorem wordsOf_ws_skip (s z : List Char)
    (hs : ∀ c ∈ s, isWs c = true) : wordsOf (s ++ z) = wordsOf z := by
  induction s with
  | nil => rfl
  | cons a s' ih =>
    simp only [List.cons_append]
    rw [wordsOf_cons, if_pos (hs a (by simp))]
    exact ih (fun c hc => hs c (by simp [hc]))

/-- `wordsOf` splits off a leading word at a whitespace boundary (or the
end of the string). -/
theorem wordsOf_word_append (w z : List Char) (hw1 : w ≠ [])
    (hw2 : ∀ c ∈ w, isWs c = false) (hz : z = [] ∨ headIsWs z = true) :
    wordsOf (w ++ z) = w :: wordsOf z := by
  induction w with
  | nil => cases hw1 rfl
  | cons c w' ih =>
    cases w' with
    | nil =>
      simp only [List.cons_append, List.nil_append]
      rw [wordsOf_cons, if_neg (by rw [hw2 c (by simp)]; simp)]
      rcases hz with hz | hz
      · subst hz
        rfl
      · rw [if_pos hz]
    | cons d w'' =>
      simp only [List.cons_append]
      rw [wordsOf_cons, if_neg (by rw [hw2 c (by simp)]; simp)]
      have hd : headIsWs ((d :: w'') ++ z) = false := by
        show isWs d = false
        exact hw2 d (by simp)
      simp only [List.cons_append] at hd
      rw [if_neg (by rw [hd]; simp)]
      have hih := ih (by simp) (fun e he => hw2 e (by simp [he]))
      simp only [List.cons_append] at hih
      rw [hih]

/-- Every word of `wordsOf` is nonempty and consists of non-whitespace
characters of the string. -/
theorem wordsOf_props : ∀ l : List Char, ∀ w ∈ wordsOf l,
    w ≠ [] ∧ ∀ c ∈ w, c ∈ l ∧ isWs c = false := by
  intro l
  induction l with
  | nil => intro w hw; cases hw
  | cons c cs ih =>
    intro w hw
    rw [wordsOf_cons] at hw
    by_cases hc : isWs c = true
    · rw [if_pos hc] at hw
      obtain ⟨h1, h2⟩ := ih w hw
      exact ⟨h1, fun d hd => ⟨by simp [(h2 d hd).1], (h2 d hd).2⟩⟩
    · rw [if_neg hc] at hw
      have hcf : isWs c = false := by
        cases hcc : isWs c
        · rfl
        · cases hc hcc
      by_cases hh : headIsWs cs = true
      · rw [if_pos hh] at hw
        rcases List.mem_cons.mp hw with h | h
        · subst h
          exact ⟨by simp, fun d hd => by
            rcases List.mem_singleton.mp hd with rfl
            exact ⟨by simp, hcf⟩⟩
        · obtain ⟨h1, h2⟩ := ih w h
          exact ⟨h1, fun d hd => ⟨by simp [(h2 d hd).1], (h2 d hd).2⟩⟩
      · rw [if_neg hh] at hw
        rcases hws : wordsOf cs with _ | ⟨t, ts⟩
        · rw [hws] at hw
          rcases List.mem_singleton.mp hw with rfl
          exact ⟨by simp, fun d hd => by
            rcases List.mem_singleton.mp hd with rfl
            exact ⟨by simp, hcf⟩⟩
        · rw [hws] at hw
          rcases List.mem_cons.mp hw with h | h
          · subst h
            have ht := ih t (by rw [hws]; simp)
            refine ⟨by simp, fun d hd => ?_⟩
            rcases List.mem_cons.mp hd with rfl | hdt
            · exact ⟨by simp, hcf⟩
            · exact ⟨by simp [(ht.2 d hdt).1], (ht.2 d hdt).2⟩
          · have ht := ih w (by rw [hws]; simp [h])
            exact ⟨ht.1, fun d hd => ⟨by simp [(ht.2 d hd).1],
              (ht.2 d hd).2⟩⟩

/-! ### The word-level article pass -/

/-- `remArt` deletes nothing when no remaining word is an article. -/
theorem remArt_id (avail : Bool) (ws : List (List Char))
    (h : ∀ w ∈ ws, isArticleW w = false) : remArt avail ws = ws := by
  induction ws generalizing avail with
  | nil => rfl
  | cons w t ih =>
    cases t with
    | nil => rfl
    | cons u t' =>
      show (if avail && isArticleW w then _ else _) = _
      rw [h w (by simp)]
      simp only [Bool.and_false, Bool.false_eq_true, if_false]
      rw [ih true (fun x hx => h x (by simp [hx]))]

/-- `remArt` returns a sublist of its input. -/
theorem remArt_sublist (avail : Bool) (ws : List (List Char)) :
    (remArt avail ws).Sublist ws := by
  induction ws generalizing avail with
  | nil => exact List.Sublist.refl _
  | cons w t ih =>
    cases t with
    | nil => exact List.Sublist.refl _
    | cons u t' =>
      show (if avail && isArticleW w then remArt false (u :: t')
        else w :: remArt true (u :: t')).Sublist (w :: u :: t')
      by_cases hc : avail && isArticleW w
      · rw [if_pos hc]
        exact (ih false).cons _
      · rw [if_neg hc]
        exact (ih true).cons₂ _

/-! ### The glue decomposition and the normalizer characterization -/

/-- A valid word does not start with whitespace. -/
theorem validWord_head {w : List Char} (h : validWord w) :
    headIsWs w = false := by
  rcases w with _ | ⟨c, w'⟩
  · rfl
  · exact h.2 c (by simp)

/-- A whitespace-free word contains no space. -/
theorem spFree {w : List Char} (h : ∀ c ∈ w, isWs c = false) :
    ∀ c ∈ w, ¬ c = ' ' := by
  intro c hc he
  subst he
  exact absurd (h ' ' hc) (by decide)

/-- A glued decomposition starts with its first word's first character. -/
theorem glue_head {w : List Char} (rest : List (List Char × List Char))
    (h : validWord w) : headIsWs (glue w rest) = false := by
  rcases w with _ | ⟨c, w'⟩
  · cases h.1 rfl
  · cases rest with
    | nil => exact h.2 c (by simp)
    | cons p t =>
      rcases p with ⟨s, w2⟩
      show headIsWs ((c :: w') ++ s ++ glue w2 t) = false
      show isWs c = false
      exact h.2 c (by simp)

/-- The article pass preserves a non-whitespace first character. -/
theorem replaceArticles_head {l : List Char} (h : headIsWs l = false) :
    headIsWs (replaceArticles l) = false := by
  cases l with
  | nil => rfl
  | cons c cs =>
    rw [replaceArticles_cons, matchArticleAt_none_headNonWs h]
    exact h

/-- The bridge: on a valid word/separator decomposition, the character
pipeline (article deletion, whitespace collapsing, splitting) produces
exactly the single-pass word-level article deletion `remArt`. -/
theorem normalize_glue : ∀ (rest : List (List Char × List Char))
    (w : List Char), validWord w → validRest rest →
    splitSp (collapseWs (replaceArticles (glue w rest))) =
      remArt false (w :: rest.map Prod.snd)
  | [], w, hw, _ => by
    show splitSp (collapseWs (replaceArticles w)) = remArt false [w]
    rw [replaceArticles_word_id w hw.2, collapseWs_word_id w hw.2,
      splitSp_word w (spFree hw.2)]
    rfl
  | [(s, w2)], w, hw, hr => by
    have hs : validSep s := (hr (s, w2) (by simp)).1
    have hw2 : validWord w2 := (hr (s, w2) (by simp)).2
    show splitSp (collapseWs (replaceArticles (w ++ s ++ glue w2 []))) =
      remArt false [w, w2]
    show splitSp (collapseWs (replaceArticles (w ++ s ++ w2))) = _
    rw [List.append_assoc]
    rw [replaceArticles_word w (s ++ w2) hw.2]
    rw [replaceArticles_sep_skip s w2 hs.2 (validWord_head hw2)
      (stripArticle_none_word_end w2 hw2.2)]
    rw [replaceArticles_word_id w2 hw2.2]
    rw [collapseWs_word w (s ++ w2) hw.2]
    rw [collapseWs_sep s w2 hs.1 hs.2 (validWord_head hw2)]
    rw [collapseWs_word_id w2 hw2.2]
    rw [splitSp_word_sep w w2 (spFree hw.2)]
    rw [splitSp_word w2 (spFree hw2.2)]
    rfl
  | (s, w2) :: (s2, w3) :: t, w, hw, hr => by
    have hs : validSep s := (hr (s, w2) (by simp)).1
    have hw2 : validWord w2 := (hr (s, w2) (by simp)).2
    have hs2 : validSep s2 := (hr (s2, w3) (by simp)).1
    have hw3 : validWord w3 := (hr (s2, w3) (by simp)).2
    have hrt : validRest t := fun p hp => hr p (by simp [hp])
    have hrt2 : validRest ((s2, w3) :: t) := fun p hp => hr p (by simp [hp])
    show splitSp (collapseWs (replaceArticles
      (w ++ s ++ glue w2 ((s2, w3) :: t)))) =
      remArt false (w :: w2 :: w3 :: t.map Prod.snd)
    by_cases hart : isArticleW w2 = true
    · -- the article is deleted together with both surrounding separators
      have hglue2 : glue w2 ((s2, w3) :: t) = w2 ++ (s2 ++ glue w3 t) := by
        show w2 ++ s2 ++ glue w3 t = _
        rw [List.append_assoc]
      rw [hglue2, List.append_assoc]
      rw [replaceArticles_word w (s ++ (w2 ++ (s2 ++ glue w3 t))) hw.2]
      rw [replaceArticles_sep_article s w2 s2 (glue w3 t) hs.1 hs.2 hart
        hs2.1 hs2.2 (glue_head t hw3)]
      rw [collapseWs_word w (' ' :: replaceArticles (glue w3 t)) hw.2]
      rw [collapseWs_cons]
      rw [show isWs ' ' = true from rfl]
      simp only [if_true]
      rw [show headIsWs (replaceArticles (glue w3 t)) = false from
        replaceArticles_head (glue_head t hw3)]
      simp only [Bool.false_eq_true, if_false]
      rw [splitSp_word_sep w (collapseWs (replaceArticles (glue w3 t)))
        (spFree hw.2)]
      rw [normalize_glue t w3 hw3 hrt]
      show _ = w :: remArt true (w2 :: w3 :: t.map Prod.snd)
      show _ = w :: (if true && isArticleW w2 then
        remArt false (w3 :: t.map Prod.snd) else
        w2 :: remArt true (w3 :: t.map Prod.snd))
      rw [hart]
      simp
    · -- the non-article word survives together with its separator
      have hartF : isArticleW w2 = false := by
        cases hcc : isArticleW w2
        · rfl
        · cases hart hcc
      rw [List.append_assoc]
      rw [replaceArticles_word w (s ++ glue w2 ((s2, w3) :: t)) hw.2]
      have hstripN : stripArticle (glue w2 ((s2, w3) :: t)) = none := by
        have hglue2 : glue w2 ((s2, w3) :: t) = w2 ++ (s2 ++ glue w3 t) := by
          show w2 ++ s2 ++ glue w3 t = _
          rw [List.append_assoc]
        rw [hglue2]
        apply stripArticle_none_word_sep w2 (s2 ++ glue w3 t) hw2.1 hw2.2
          hartF
        right
        rcases s2 with _ | ⟨b, s2'⟩
        · cases hs2.1 rfl
        · show isWs b = true
          exact hs2.2 b (by simp)
      rw [replaceArticles_sep_skip s (glue w2 ((s2, w3) :: t)) hs.2
        (glue_head _ hw2) hstripN]
      rw [collapseWs_word w
        (s ++ replaceArticles (glue w2 ((s2, w3) :: t))) hw.2]
      rw [collapseWs_sep s (replaceArticles (glue w2 ((s2, w3) :: t))) hs.1
        hs.2 (replaceArticles_head (glue_head _ hw2))]
      rw [splitSp_word_sep w
        (collapseWs (replaceArticles (glue w2 ((s2, w3) :: t))))
        (spFree hw.2)]
      rw [normalize_glue ((s2, w3) :: t) w2 hw2 hrt2]
      show _ = w :: remArt true (w2 :: w3 :: t.map Prod.snd)
      show w :: (if false && isArticleW w2 then _ else
        w2 :: remArt true (w3 :: t.map Prod.snd)) =
        w :: (if true && isArticleW w2 then _ else
        w2 :: remArt true (w3 :: t.map Prod.snd))
      rw [hartF]
      simp

/-- The head of a `dropWhile` residue falsifies the predicate. -/
theorem dropWhile_head_false (p : Char → Bool) :
    ∀ (l : List Char) (r0 : Char) (rt : List Char),
      l.dropWhile p = r0 :: rt → p r0 = false := by
  intro l
  induction l with
  | nil => intro r0 rt h; cases h
  | cons c cs ih =>
    intro r0 rt h
    rw [List.dropWhile_cons] at h
    by_cases hc : p c = true
    · rw [if_pos hc] at h
      exact ih r0 rt h
    · rw [if_neg hc] at h
      injection h with h1 _
      rw [← h1]
      cases hcc : p c
      · rfl
      · exact absurd hcc hc

/-- The first character of a nonempty prefix decides `headIsWs` of an
append. -/
theorem headIsWs_append_left {l : List Char} (m : List Char)
    (h : l ≠ []) : headIsWs (l ++ m) = headIsWs l := by
  rcases l with _ | ⟨c, l'⟩
  · cases h rfl
  · rfl

/-- `lastIsWs` only depends on a nonempty suffix. -/
theorem lastIsWs_append {y : List Char} (x : List Char) (h : y ≠ []) :
    lastIsWs (x ++ y) = lastIsWs y := by
  unfold lastIsWs
  rw [List.reverse_append]
  exact headIsWs_append_left _ (by simpa using h)

/-- A nonempty all-whitespace string ends in whitespace. -/
theorem lastIsWs_allWs {s : List Char} (h1 : s ≠ [])
    (h2 : ∀ c ∈ s, isWs c = true) : lastIsWs s = true := by
  unfold lastIsWs
  rcases hrev : s.reverse with _ | ⟨c, r'⟩
  · exact absurd (by simpa using congrArg List.reverse hrev) h1
  · show isWs c = true
    apply h2
    rw [← List.mem_reverse, hrev]
    simp

/-- Every trimmed nonempty string decomposes into words and separators,
and `wordsOf` lists exactly the words of the decomposition. -/
theorem glue_decomp : ∀ (n : Nat) (cs : List Char), cs.length ≤ n →
    cs ≠ [] → headIsWs cs = false → lastIsWs cs = false →
    ∃ w rest, validWord w ∧ validRest rest ∧ glue w rest = cs ∧
      wordsOf cs = w :: rest.map Prod.snd := by
  intro n
  induction n with
  | zero =>
    intro cs hlen hne _ _
    rcases cs with _ | ⟨c, cs'⟩
    · cases hne rfl
    · simp at hlen
  | succ m ih =>
    intro cs hlen hne hhead hlast
    have hcs : cs.takeWhile (fun c => !isWs c) ++
        cs.dropWhile (fun c => !isWs c) = cs :=
      List.takeWhile_append_dropWhile _ _
    have hwProps : ∀ c ∈ cs.takeWhile (fun c => !isWs c),
        isWs c = false := by
      intro c hc
      have := List.mem_takeWhile_imp hc
      simpa using this
    have hwne : cs.takeWhile (fun c => !isWs c) ≠ [] := by
      rcases cs with _ | ⟨c0, cs'⟩
      · cases hne rfl
      · have hc0 : isWs c0 = false := hhead
        rw [List.takeWhile_cons, hc0]
        simp
    rcases hrnil : cs.dropWhile (fun c => !isWs c) with _ | ⟨r0, rtail⟩
    · refine ⟨cs.takeWhile (fun c => !isWs c), [],
        ⟨hwne, hwProps⟩, ?_, ?_, ?_⟩
      · intro p hp
        cases hp
      · show cs.takeWhile (fun c => !isWs c) = cs
        conv_rhs => rw [← hcs]
        rw [hrnil, List.append_nil]
      · conv_lhs => rw [← hcs, hrnil, List.append_nil]
        have hwd := wordsOf_word_append (cs.takeWhile (fun c => !isWs c))
          [] hwne hwProps (Or.inl rfl)
        rw [List.append_nil] at hwd
        rw [hwd]
        rfl
    · -- the residue starts with whitespace
      have hr0 : isWs r0 = true := by
        have := dropWhile_head_false (fun c => !isWs c) cs r0 rtail hrnil
        simpa using this
      have hrAll : ∀ c ∈ (r0 :: rtail).takeWhile isWs, isWs c = true :=
        fun c hc => List.mem_takeWhile_imp hc
      have hrSplit : (r0 :: rtail).takeWhile isWs ++
          (r0 :: rtail).dropWhile isWs = r0 :: rtail :=
        List.takeWhile_append_dropWhile _ _
      have hsne : (r0 :: rtail).takeWhile isWs ≠ [] := by
        rw [List.takeWhile_cons, hr0]
        simp
      rcases hr2 : (r0 :: rtail).dropWhile isWs with _ | ⟨q0, qtail⟩
      · -- impossible: the string would end in whitespace
        exfalso
        rw [hr2, List.append_nil] at hrSplit
        have hAllR : ∀ c ∈ (r0 :: rtail), isWs c = true := by
          intro c hc
          apply hrAll
          rw [hrSplit]
          exact hc
        have hlast2 : lastIsWs cs = true := by
          conv_lhs => rw [← hcs, hrnil]
          rw [lastIsWs_append _ (by simp)]
          exact lastIsWs_allWs (by simp) hAllR
        rw [hlast2] at hlast
        cases hlast
      · have hq0 : isWs q0 = false :=
          dropWhile_head_false isWs (r0 :: rtail) q0 qtail hr2
        have hq0' : headIsWs (q0 :: qtail) = false := hq0
        have hqlast : lastIsWs (q0 :: qtail) = false := by
          have h1 : lastIsWs cs = lastIsWs (q0 :: qtail) := by
            conv_lhs => rw [← hcs, hrnil, ← hrSplit, hr2]
            rw [lastIsWs_append _ (by simp), lastIsWs_append _ (by simp)]
          rw [← h1]
          exact hlast
        have hqlen : (q0 :: qtail).length ≤ m := by
          have e1 := congrArg List.length hcs
          have e2 := congrArg List.length hrSplit
          rw [hrnil] at e1
          rw [hr2] at e2
          simp only [List.length_append, List.length_cons] at e1 e2
          have hwlen : 0 < (cs.takeWhile (fun c => !isWs c)).length := by
            rcases hx : cs.takeWhile (fun c => !isWs c) with _ | _
            · cases hwne hx
            · simp [hx]
          have hslen : 0 < ((r0 :: rtail).takeWhile isWs).length := by
            rcases hx : (r0 :: rtail).takeWhile isWs with _ | _
            · cases hsne hx
            · simp [hx]
          simp only [List.length_cons] at hlen ⊢
          omega
        obtain ⟨w2, rest2, hw2, hrest2, hglue2, hwords2⟩ :=
          ih (q0 :: qtail) hqlen (by simp) hq0' hqlast
        have hsHead : headIsWs ((r0 :: rtail).takeWhile isWs ++
            (q0 :: qtail)) = true := by
          rw [headIsWs_append_left _ hsne]
          rcases hx : (r0 :: rtail).takeWhile isWs with _ | ⟨a, s'⟩
          · cases hsne hx
          · show isWs a = true
            apply hrAll
            rw [hx]
            simp
        refine ⟨cs.takeWhile (fun c => !isWs c),
          ((r0 :: rtail).takeWhile isWs, w2) :: rest2,
          ⟨hwne, hwProps⟩, ?_, ?_, ?_⟩
        · intro p hp
          rcases List.mem_cons.mp hp with rfl | hp2
          · exact ⟨⟨hsne, hrAll⟩, hw2⟩
          · exact hrest2 p hp2
        · show cs.takeWhile (fun c => !isWs c) ++
            (r0 :: rtail).takeWhile isWs ++ glue w2 rest2 = cs
          rw [hglue2, List.append_assoc]
          conv_rhs => rw [← hcs, hrnil, ← hrSplit, hr2]
        · conv_lhs => rw [← hcs, hrnil, ← hrSplit, hr2]
          rw [← List.append_assoc,
            List.append_assoc (cs.takeWhile (fun c => !isWs c))]
          rw [wordsOf_word_append _ _ hwne hwProps (Or.inr hsHead)]
          rw [wordsOf_ws_skip _ _ hrAll]
          rw [hwords2]
          rfl

/-- `trim` is a prefix of the whitespace-stripped-from-the-left string,
leaving only trailing whitespace. -/
theorem trim_decomp (l : List Char) : ∃ t, l.dropWhile isWs = trim l ++ t ∧
    ∀ c ∈ t, isWs c = true := by
  refine ⟨((l.dropWhile isWs).reverse.takeWhile isWs).reverse, ?_, ?_⟩
  · unfold trim
    have h := List.takeWhile_append_dropWhile (p := isWs)
      (l := (l.dropWhile isWs).reverse)
    have h2 := congrArg List.reverse h
    rw [List.reverse_append] at h2
    rw [List.reverse_reverse] at h2
    exact h2.symm
  · intro c hc
    rw [List.mem_reverse] at hc
    exact List.mem_takeWhile_imp hc

/-- `dropWhile` is the identity when the head does not satisfy the
predicate. -/
theorem dropWhile_id_of_head {l : List Char} (h : headIsWs l = false) :
    l.dropWhile isWs = l := by
  cases l with
  | nil => rfl
  | cons c cs =>
    rw [List.dropWhile_cons]
    have hc : isWs c = false := h
    rw [hc]
    simp

/-- A nonempty trimmed string does not start with whitespace. -/
theorem headIsWs_trim (s : List Char) (h : trim s ≠ []) :
    headIsWs (trim s) = false := by
  obtain ⟨t, hd, _⟩ := trim_decomp s
  have hdw : headIsWs (s.dropWhile isWs) = false := by
    rcases hx : s.dropWhile isWs with _ | ⟨c, cs⟩
    · rfl
    · show isWs c = false
      exact dropWhile_head_false isWs s c cs hx
  rw [hd, headIsWs_append_left _ h] at hdw
  exact hdw

/-- A nonempty trimmed string does not end in whitespace. -/
theorem lastIsWs_trim (s : List Char) (h : trim s ≠ []) :
    lastIsWs (trim s) = false := by
  unfold lastIsWs trim
  rw [List.reverse_reverse]
  rcases hx : (s.dropWhile isWs).reverse.dropWhile isWs with _ | ⟨c, cs⟩
  · exfalso
    apply h
    unfold trim
    rw [hx]
    rfl
  · show isWs c = false
    exact dropWhile_head_false isWs _ c cs hx

/-- Lowercasing preserves the whitespace status of the first character. -/
theorem headIsWs_lowerStr (l : List Char) :
    headIsWs (lowerStr l) = headIsWs l := by
  cases l with
  | nil => rfl
  | cons c cs =>
    show isWs (jsToLower c) = isWs c
    exact isWs_jsToLower c

/-- Lowercasing preserves the whitespace status of the last character. -/
theorem lastIsWs_lowerStr (l : List Char) :
    lastIsWs (lowerStr l) = lastIsWs l := by
  unfold lastIsWs lowerStr
  rw [← List.map_reverse]
  exact headIsWs_lowerStr l.reverse

/-- The normalizer, characterized at the word level: it trims, lowercases,
splits into words, and deletes articles in a single left-to-right pass in
which an article is kept if it is the first word, the last word, or
directly follows a deleted article (`remArt`); an empty or all-whitespace
input yields the single empty token. -/
theorem tokenize_eq_remArt_words (s : List Char) :
    tokenizeInputString s =
      if trim s = [] then [[]]
      else remArt false (wordsOf (lowerStr (trim s))) := by
  by_cases h : trim s = []
  · rw [if_pos h]
    unfold tokenizeInputString
    rw [h]
    rfl
  · rw [if_neg h]
    have hne : lowerStr (trim s) ≠ [] := by
      intro hx
      unfold lowerStr at hx
      exact h (List.map_eq_nil.mp hx)
    have hh : headIsWs (lowerStr (trim s)) = false := by
      rw [headIsWs_lowerStr]
      exact headIsWs_trim s h
    have hl : lastIsWs (lowerStr (trim s)) = false := by
      rw [lastIsWs_lowerStr]
      exact lastIsWs_trim s h
    obtain ⟨w, rest, hw, hrest, hglue, hwords⟩ :=
      glue_decomp (lowerStr (trim s)).length (lowerStr (trim s))
        (le_refl _) hne hh hl
    unfold tokenizeInputString
    rw [← hglue, normalize_glue rest w hw hrest, ← hwords, hglue]

/-! ### Renormalizing a joined token sequence -/

/-- `trim` is the identity on strings that neither start nor end in
whitespace. -/
theorem trim_id {l : List Char} (h1 : headIsWs l = false)
    (h2 : lastIsWs l = false) : trim l = l := by
  unfold trim
  rw [dropWhile_id_of_head h1]
  rw [dropWhile_id_of_head h2]
  exact List.reverse_reverse l

/-- Lowercasing is the identity on characters fixed by `jsToLower`. -/
theorem lowerStr_id {l : List Char} (h : ∀ c ∈ l, jsToLower c = c) :
    lowerStr l = l := by
  induction l with
  | nil => rfl
  | cons c cs ih =>
    show jsToLower c :: lowerStr cs = c :: cs
    rw [h c (by simp), ih (fun d hd => h d (by simp [hd]))]

/-- Every character of a joined token list is a token character or the
space separator. -/
theorem mem_joinSp (ts : List (List Char)) (c : Char)
    (hc : c ∈ joinSp ts) : (∃ w ∈ ts, c ∈ w) ∨ c = ' ' := by
  induction ts with
  | nil => cases hc
  | cons w rest ih =>
    cases rest with
    | nil =>
      left
      exact ⟨w, by simp, hc⟩
    | cons u rest' =>
      have : c ∈ w ++ ' ' :: joinSp (u :: rest') := hc
      rcases List.mem_append.mp this with h | h
      · left
        exact ⟨w, by simp, h⟩
      · rcases List.mem_cons.mp h with rfl | h2
        · right
          rfl
        · rcases ih h2 with ⟨v, hv1, hv2⟩ | hsp
          · left
            exact ⟨v, by simp [hv1], hv2⟩
          · right
            exact hsp

/-- A joined token list of nonempty tokens is nonempty and starts with the
first token's first character. -/
theorem joinSp_head (t0 : List Char) (rest : List (List Char))
    (h0 : t0 ≠ []) : joinSp (t0 :: rest) ≠ [] ∧
      headIsWs (joinSp (t0 :: rest)) = headIsWs t0 := by
  cases rest with
  | nil => exact ⟨h0, rfl⟩
  | cons u rest' =>
    show t0 ++ ' ' :: joinSp (u :: rest') ≠ [] ∧
      headIsWs (t0 ++ ' ' :: joinSp (u :: rest')) = headIsWs t0
    constructor
    · simp [h0]
    · exact headIsWs_append_left _ h0

/-- A joined token list of nonempty tokens ends with the last token's last
character. -/
theorem joinSp_last : ∀ (ts : List (List Char)), ts ≠ [] →
    (∀ w ∈ ts, w ≠ [] ∧ lastIsWs w = false) →
    lastIsWs (joinSp ts) = false := by
  intro ts
  induction ts with
  | nil => intro h _; cases h rfl
  | cons w rest ih =>
    intro _ hws
    cases rest with
    | nil => exact (hws w (by simp)).2
    | cons u rest' =>
      show lastIsWs (w ++ ' ' :: joinSp (u :: rest')) = false
      have hj := joinSp_head u rest' (hws u (by simp)).1
      have hne : (' ' :: joinSp (u :: rest') : List Char) ≠ [] := by simp
      rw [lastIsWs_append _ hne]
      have hjoin : lastIsWs (joinSp (u :: rest')) = false :=
        ih (by simp) (fun v hv => hws v (by simp [hv]))
      show lastIsWs (' ' :: joinSp (u :: rest')) = false
      unfold lastIsWs
      rw [show (' ' :: joinSp (u :: rest')).reverse =
        (joinSp (u :: rest')).reverse ++ [' '] from by simp]
      rw [headIsWs_append_left _ ?_]
      · exact hjoin
      · intro hx
        have := congrArg List.reverse hx
        rw [List.reverse_reverse] at this
        exact hj.1 (by simpa using this)

/-- Splitting the join of nonempty whitespace-free tokens recovers the
tokens. -/
theorem wordsOf_joinSp : ∀ (ts : List (List Char)), ts ≠ [] →
    (∀ w ∈ ts, w ≠ [] ∧ ∀ c ∈ w, isWs c = false) →
    wordsOf (joinSp ts) = ts := by
  intro ts
  induction ts with
  | nil => intro h _; cases h rfl
  | cons w rest ih =>
    intro _ hws
    cases rest with
    | nil =>
      show wordsOf w = [w]
      have hwd := wordsOf_word_append w [] (hws w (by simp)).1
        (hws w (by simp)).2 (Or.inl rfl)
      rw [List.append_nil] at hwd
      rw [hwd]
      rfl
    | cons u rest' =>
      show wordsOf (w ++ ' ' :: joinSp (u :: rest')) = w :: u :: rest'
      rw [wordsOf_word_append w (' ' :: joinSp (u :: rest'))
        (hws w (by simp)).1 (hws w (by simp)).2 (Or.inr rfl)]
      rw [wordsOf_cons, if_pos (by decide)]
      rw [ih (by simp) (fun v hv => hws v (by simp [hv]))]

/-- `remArt` never deletes every word. -/
theorem remArt_ne_nil : ∀ (ws : List (List Char)) (avail : Bool),
    ws ≠ [] → remArt avail ws ≠ [] := by
  intro ws
  induction ws with
  | nil => intro avail h; cases h rfl
  | cons w t ih =>
    intro avail _
    cases t with
    | nil => simp [remArt]
    | cons u t' =>
      show (if avail && isArticleW w then remArt false (u :: t')
        else w :: remArt true (u :: t')) ≠ []
      by_cases hc : avail && isArticleW w
      · rw [if_pos hc]
        exact ih false (by simp)
      · rw [if_neg hc]
        simp

/-- A whitespace-free string does not end in whitespace. -/
theorem lastIsWs_of_wsFree {w : List Char}
    (h : ∀ c ∈ w, isWs c = false) : lastIsWs w = false := by
  unfold lastIsWs
  rcases hrev : w.reverse with _ | ⟨c, r'⟩
  · rfl
  · show isWs c = false
    apply h
    rw [← List.mem_reverse, hrev]
    simp

/-- A trimmed nonempty string has at least one word. -/
theorem wordsOf_ne_nil {cs : List Char} (h1 : cs ≠ [])
    (h2 : headIsWs cs = false) : wordsOf cs ≠ [] := by
  rcases cs with _ | ⟨c, cs'⟩
  · cases h1 rfl
  · have hc : isWs c = false := h2
    rw [wordsOf_cons, hc]
    simp only [Bool.false_eq_true, if_false]
    by_cases hh : headIsWs cs' = true
    · rw [if_pos hh]
      simp
    · rw [if_neg hh]
      rcases hws : wordsOf cs' with _ | ⟨t, ts⟩ <;> simp

/-! ### Claims C5 and C6 -/

/-- C6 counterexample: the normalizer does not delete every standalone
article — on `the key` the leading article survives, unlike the
spec-described normalizer. -/
theorem c6_normalizer_counterexample :
    tokenizeInputString "the key".data ≠ specTokenize "the key".data ∧
    tokenizeInputString "the key".data = ["the".data, "key".data] ∧
    specTokenize "the key".data = ["key".data] :=
  ⟨by decide, rfl, rfl⟩

/-- C6 (amended): the normalizer trims, lowercases and splits the input
into words, and deletes articles in one left-to-right non-rescanning
pass: an article is deleted only when the separator before it was not
consumed by a previous deletion and another word follows — so an article
that is the first word, the last word, or directly follows a deleted
article is kept.  An empty or all-whitespace input yields the single
empty token. -/
theorem c6_normalizer_characterization (s : List Char) :
    tokenizeInputString s =
      if trim s = [] then [[]]
      else remArt false (wordsOf (lowerStr (trim s))) :=
  tokenize_eq_remArt_words s

/-- C5 counterexample: normalization is not idempotent — on `b a a c` the
first pass keeps the second article (its separator was consumed by the
first deletion), and renormalizing deletes it. -/
theorem c5_idempotence_counterexample :
    tokenizeInputString (joinSp (tokenizeInputString "b a a c".data)) ≠
      tokenizeInputString "b a a c".data ∧
    tokenizeInputString "b a a c".data =
      ["b".data, "a".data, "c".data] ∧
    tokenizeInputString (joinSp (tokenizeInputString "b a a c".data)) =
      ["b".data, "c".data] :=
  ⟨by decide, by decide, by decide⟩

/-- C5 (amended): normalization is idempotent on every string whose
normalized sequence contains no surviving article token (articles can
survive at the start or end, or after a deleted article, and a second
pass then deletes more). -/
theorem c5_idempotent_without_surviving_articles (s : List Char)
    (h : ∀ w ∈ tokenizeInputString s, isArticleW w = false) :
    tokenizeInputString (joinSp (tokenizeInputString s)) =
      tokenizeInputString s := by
  rw [tokenize_eq_remArt_words s] at h ⊢
  by_cases htr : trim s = []
  · rw [if_pos htr] at h ⊢
    rfl
  · rw [if_neg htr] at h ⊢
    have hwsne : wordsOf (lowerStr (trim s)) ≠ [] := by
      apply wordsOf_ne_nil
      · intro hx
        unfold lowerStr at hx
        exact htr (List.map_eq_nil.mp hx)
      · rw [headIsWs_lowerStr]
        exact headIsWs_trim s htr
    have hsub := remArt_sublist false (wordsOf (lowerStr (trim s)))
    have hprops : ∀ w ∈ remArt false (wordsOf (lowerStr (trim s))),
        w ≠ [] ∧ ∀ c ∈ w, isWs c = false := by
      intro w hw
      obtain ⟨h1, h2⟩ := wordsOf_props _ w (hsub.subset hw)
      exact ⟨h1, fun c hc => (h2 c hc).2⟩
    have htoksne : remArt false (wordsOf (lowerStr (trim s))) ≠ [] :=
      remArt_ne_nil _ false hwsne
    rcases htoks0 : remArt false (wordsOf (lowerStr (trim s)))
      with _ | ⟨t0, trest⟩
    · cases htoksne htoks0
    rw [htoks0] at h hprops
    have ht0 := hprops t0 (by simp)
    have hjhead := joinSp_head t0 trest ht0.1
    have hjne : joinSp (t0 :: trest) ≠ [] := hjhead.1
    have hheadf : headIsWs (joinSp (t0 :: trest)) = false := by
      rw [hjhead.2]
      exact validWord_head ⟨ht0.1, ht0.2⟩
    have hlastf : lastIsWs (joinSp (t0 :: trest)) = false := by
      apply joinSp_last (t0 :: trest) (by simp)
      intro w hw
      exact ⟨(hprops w hw).1, lastIsWs_of_wsFree (hprops w hw).2⟩
    have htrimj : trim (joinSp (t0 :: trest)) = joinSp (t0 :: trest) :=
      trim_id hheadf hlastf
    rw [tokenize_eq_remArt_words (joinSp (t0 :: trest))]
    rw [if_neg (by rw [htrimj]; exact hjne)]
    rw [htrimj]
    have hlowid : lowerStr (joinSp (t0 :: trest)) = joinSp (t0 :: trest) := by
      apply lowerStr_id
      intro c hc
      rcases mem_joinSp _ c hc with ⟨w, hw1, hw2⟩ | rfl
      · have hcmem : c ∈ lowerStr (trim s) :=
          ((wordsOf_props _ w (hsub.subset (by rw [htoks0]; exact hw1))).2
            c hw2).1
        unfold lowerStr at hcmem
        rcases List.mem_map.mp hcmem with ⟨c', _, rfl⟩
        exact jsToLower_idem c'
      · decide
    rw [hlowid]
    rw [wordsOf_joinSp (t0 :: trest) (by simp) (fun w hw => hprops w hw)]
    exact remArt_id false (t0 :: trest) h

/-- Witness for C5's amended idempotence at `pick up the key`, whose
normalization (`pick`, `up`, `key`) is article-free. -/
theorem c5_idempotent_without_surviving_articles_witness :
    tokenizeInputString (joinSp (tokenizeInputString
      "pick up the key".data)) = tokenizeInputString "pick up the key".data :=
  c5_idempotent_without_surviving_articles "pick up the key".data (by decide)
